import Mathlib

/-!
Shallow embedding of `src/ga.py` (class `GeneticAlgorithm`), a continuous-parameter
genetic-algorithm optimizer, together with proofs settling the frozen claims.

Embedding conventions (stated once, used throughout):

* Python floats are idealized as `ℚ`.  Every numeric operation of the source
  (sums, means, divisions, comparisons) is exact rational arithmetic.
* An `Individual` is a Python dict `{parameter: value}` whose keys are always
  `self.parameters` in order (initialization inserts keys in that order, and
  crossover/mutation preserve key order).  It is embedded as the list of values
  in parameter order, `Ind := List ℚ`; `self.boundaries` is indexed positionally
  exactly as the source does (`boundaries[idx]`, the counter `x` in `_mutation`).
* `np.random` global state is embedded as an explicit stream `σ : ℕ → ℚ` of raw
  draws in `[0, 1)` together with a cursor `k : ℕ` threaded through every
  operation; `np.random.uniform(lo, hi)` consumes one raw draw `u = σ k` and
  returns `lo + (hi - lo) * u` (numpy's definition, valid also when `lo > hi`,
  which `_mutation` relies on for a negative `bound`).
* `sorted(population, key=self._model_fitness)` is a stable ascending sort by
  key.  Stable sorts are extensionally unique, so it is embedded by Mathlib's
  stable `List.insertionSort` on the relation "fitness ≤ fitness".
* Python `round(x, p)` rounds to `p` decimal digits, ties to even; embedded as
  exact half-to-even rounding of `x * 10^p` on `ℚ`.
* The one numeric-shape liberty: scikit-learn style row vectors.  The source
  builds a `(1, n)` array from the value list, and `X_scale.transform`,
  `model.predict`, `y_scale.inverse_transform` map rows to rows, with the
  trailing `[0]` / ndarray unwrap extracting the scalar.  Scalers and `predict`
  are embedded as functions `List ℚ → List ℚ` on the single row, and the final
  unwrap as taking the head of the produced row.
* Exceptions abort a run with nothing returned; fallible operations return
  `Except GAErr _` / `Option _`.  `GAErr.selectionFailure` stands for the crash
  that kills a run inside a generation: either the `TypeError` of unpacking a
  selection that fell through its loop and returned `None`, or the
  `ZeroDivisionError` raised inside `roulette_select` when the shifted weight
  normalizer is zero; in both cases nothing is returned to the caller.
-/

namespace GA

/-- Values of one individual, in `self.parameters` order. -/
abbrev Ind := List ℚ

/-- Fatal errors of the source, which raises `ValueError` on bad configuration
(the spec's name for this condition is `ConfigurationError`) and dies with an
uncaught exception when a selection falls through (see module docstring). -/
inductive GAErr where
  | configurationError
  | selectionFailure
deriving DecidableEq, Repr

/-- The evaluator: either a plain Python function (the source detects this with
`callable(self.model) and str(type(self.model)) == "<class 'function'>"`) or a
trained-model object exposing `predict` over a row vector. -/
inductive Model where
  | fn (f : Ind → ℚ)
  | predictor (predict : List ℚ → List ℚ)

/-- Fields of the `GeneticAlgorithm` object that are fixed at construction:
`model`, `parameters`, `boundaries`, the optional scaler pair (embedded by the
row-to-row maps `X_scale.transform` and `y_scale.inverse_transform`),
`pop_size`, `precision`. -/
structure GAState where
  model : Model
  parameters : List String
  boundaries : List (ℚ × ℚ)
  X_scale : Option (List ℚ → List ℚ)
  y_scale : Option (List ℚ → List ℚ)
  pop_size : ℕ
  precision : ℕ

/-- Embedding of `np.random.uniform(lo, hi)` applied to the raw draw
`u ∈ [0, 1)`: numpy returns `lo + (hi - lo) * u`, also when `lo > hi`. -/
def uniform (lo hi u : ℚ) : ℚ := lo + (hi - lo) * u

/-- A raw-draw stream as produced by `np.random`: every draw lies in `[0, 1)`. -/
def UniformSource (σ : ℕ → ℚ) : Prop := ∀ n, 0 ≤ σ n ∧ σ n < 1

/-- Embedding of `min(max(itr, lo), hi)` from `_mutation`. -/
def clamp (x lo hi : ℚ) : ℚ := min (max x lo) hi

/-- Shared body of `_model_fitness` and `model_predict` (the source duplicates
this branch verbatim in both methods): a plain function is applied to the
individual; a model object predicts on the feature-transformed row when both
scalers are supplied (`if self.X_scale and self.y_scale:`) and on the raw value
row otherwise, the scalar being extracted from the produced row. -/
def raw_predict (g : GAState) (ind : Ind) : ℚ :=
  match g.model with
  | .fn f => f ind
  | .predictor predict =>
    match g.X_scale, g.y_scale with
    | some xs, some ys => (ys (predict (xs ind))).headD 0
    | _, _ => (predict ind).headD 0

/-- Embedding of `_model_fitness`: the raw prediction, negated when
`self.mode == 'minimize'`. -/
def model_fitness (g : GAState) (mode : String) (ind : Ind) : ℚ :=
  if mode == "minimize" then -(raw_predict g ind) else raw_predict g ind

/-- Embedding of `model_predict`: the raw prediction with no sign adjustment. -/
def model_predict (g : GAState) (ind : Ind) : ℚ :=
  raw_predict g ind

/-- Embedding of `_sort_pop`: `sorted(population, key=self._model_fitness)`,
a stable ascending sort (worst fitness first, best last).  Stable sorts agree
extensionally, so Mathlib's stable `insertionSort` embeds Python's Timsort. -/
def sort_pop (g : GAState) (mode : String) (population : List Ind) : List Ind :=
  List.insertionSort (fun a b => model_fitness g mode a ≤ model_fitness g mode b) population

/-- Draws of one individual in `_initialize_pop`: one uniform draw per
parameter, `np.random.uniform(low=boundaries[idx][0], high=boundaries[idx][1])`.
Returns the individual and the advanced stream cursor. -/
def draw_vals (σ : ℕ → ℚ) : List (ℚ × ℚ) → ℕ → Ind × ℕ
  | [], k => ([], k)
  | (lo, hi) :: rest, k =>
    let v := uniform lo hi (σ k)
    let (vs, k') := draw_vals σ rest (k + 1)
    (v :: vs, k')

/-- The loop of `_initialize_pop`: `size` individuals, drawn in order. -/
def init_pop_go (g : GAState) (σ : ℕ → ℚ) : ℕ → ℕ → List Ind × ℕ
  | 0, k => ([], k)
  | n + 1, k =>
    let (ind, k1) := draw_vals σ g.boundaries k
    let (rest, k2) := init_pop_go g σ n k1
    (ind :: rest, k2)

/-- Embedding of `_initialize_pop`: raises
`ValueError('Parameter list must match boundaries')` on a length mismatch,
otherwise builds `size` uniformly drawn individuals. -/
def initialize_pop (g : GAState) (size : ℕ) (σ : ℕ → ℚ) (k : ℕ) :
    Except GAErr (List Ind × ℕ) :=
  if g.parameters.length ≠ g.boundaries.length then .error .configurationError
  else .ok (init_pop_go g σ size k)

/-- Embedding of `_crossover`: `zip(a.items(), b.items())` with
`cross[k] = np.mean([v, v2])`, the exact arithmetic mean. -/
def crossover (a b : Ind) : Ind :=
  List.zipWith (fun v v2 => (v + v2) / 2) a b

/-- Loop body of `_mutation` over the individual's values, with `boundaries`
consumed positionally (the source's counter `x`).  `rate` is the branch result
`mutation_prob` (dynamic) or `self.mutation_rate` (static), hoisted out of the
loop since `self.dynamic` is loop-invariant.  One raw draw per value:
`itr = individual[k] + np.random.uniform(-bound, bound)`, then clamping.
A value with no matching boundary would be an `IndexError` in the source; it is
unreachable in a run (individual length always equals `len(boundaries)`) and
embedded as the identity. -/
def mutation_go (σ : ℕ → ℚ) (rate : ℚ) : List ℚ → List (ℚ × ℚ) → ℕ → List ℚ × ℕ
  | [], _, k => ([], k)
  | v :: vs, [], k => (v :: vs, k)
  | v :: vs, (lo, hi) :: bs, k =>
    let bound := rate * v
    let itr := v + uniform (-bound) bound (σ k)
    let (rest, k') := mutation_go σ rate vs bs (k + 1)
    (clamp itr lo hi :: rest, k')

/-- Embedding of `_mutation`: in dynamic mode the perturbation rate is the
passed-in `mutation_prob`, in static mode it is `self.mutation_rate` (the
source passes `mutation_prob = None` then, never read; embedded as an unused
`ℚ` argument). -/
def mutation (g : GAState) (dynamic : Bool) (mutation_rate : ℚ) (ind : Ind)
    (mutation_prob : ℚ) (σ : ℕ → ℚ) (k : ℕ) : Ind × ℕ :=
  mutation_go σ (if dynamic then mutation_prob else mutation_rate) ind g.boundaries k

/-- Cumulative walk of `rank_select`: `enumerate(sorted_pop, start=idx)`,
weight `idx / summation` per step, returning the first individual whose
cumulative weight reaches the draw.  `none` embeds the loop falling through
(the Python function returning `None`). -/
def rank_select_go (summation draw : ℚ) : List Ind → ℚ → ℕ → Option (Ind × ℕ)
  | [], _, _ => none
  | x :: xs, cumulative, idx =>
    let c := cumulative + idx / summation
    if draw ≤ c then some (x, idx) else rank_select_go summation draw xs c (idx + 1)

/-- Embedding of `rank_select`: one raw draw `u = np.random.uniform(0, 1)`
passed in by the caller, then the cumulative walk from rank 1. -/
def rank_select (sorted_pop : List Ind) (summation : ℚ) (draw : ℚ) :
    Option (Ind × ℕ) :=
  rank_select_go summation draw sorted_pop 0 1

/-- Cumulative walk of `roulette_select`: weight
`(fitness + offset) / summation` per individual, in sorted order. -/
def roulette_go (g : GAState) (mode : String) (offset summation draw : ℚ) :
    List Ind → ℚ → ℕ → Option (Ind × ℕ)
  | [], _, _ => none
  | x :: xs, cumulative, idx =>
    let fitness := model_fitness g mode x + offset
    let c := cumulative + fitness / summation
    if draw ≤ c then some (x, idx) else roulette_go g mode offset summation draw xs c (idx + 1)

/-- Offset of `roulette_select`: `0`, replaced by `-lowest_fitness` when the
fitness of `sorted_pop[0]` is negative.  (`sorted_pop[0]` of an empty list is
an `IndexError` in Python; the head default is junk for that unreachable case.) -/
def roulette_offset (g : GAState) (mode : String) (sorted_pop : List Ind) : ℚ :=
  if model_fitness g mode (sorted_pop.headD []) < 0 then
    -(model_fitness g mode (sorted_pop.headD [])) else 0

/-- Embedding of `roulette_select`: computes the offset, shifts `summation` by
`offset * sorted_pop.length` in the negative case, then draws and walks.  When
the shifted `summation` is zero and the population is non-empty, the first
weight `fitness / summation` is a float division by zero: CPython raises
`ZeroDivisionError` before any comparison happens, so the call produces no
value — embedded as `none` (exact rational division is total, so the guard is
explicit). -/
def roulette_select (g : GAState) (mode : String) (sorted_pop : List Ind)
    (summation : ℚ) (draw : ℚ) : Option (Ind × ℕ) :=
  let offset := roulette_offset g mode sorted_pop
  let summation := summation + offset * sorted_pop.length
  if summation = 0 ∧ sorted_pop ≠ [] then none
  else roulette_go g mode offset summation draw sorted_pop 0 1

/-- The selection technique stored on the object by `run`
(`self.select = self.roulette_select` / `self.rank_select`); `_mating_pool`
dispatches on which bound method it is. -/
inductive Selection where
  | rank
  | roulette
deriving DecidableEq, Repr

/-- Dispatch of `self.select(sorted_pop, summation)`, with the raw draw made
explicit (each selection call consumes exactly one raw draw). -/
def select_fn (g : GAState) (mode : String) (sel : Selection) (sorted_pop : List Ind)
    (summation : ℚ) (draw : ℚ) : Option (Ind × ℕ) :=
  match sel with
  | .rank => rank_select sorted_pop summation draw
  | .roulette => roulette_select g mode sorted_pop summation draw

/-- The `summation` precomputed by `_mating_pool`: total raw fitness of
`self.population` (unsorted) for roulette, `sum(range(1, pop_size + 1))` for
rank. -/
def summation_of (g : GAState) (mode : String) (sel : Selection)
    (population : List Ind) : ℚ :=
  match sel with
  | .roulette => (population.map (model_fitness g mode)).sum
  | .rank => ((List.range g.pop_size).map (fun i => ((i + 1 : ℕ) : ℚ))).sum

/-- Child-producing loop of `_mating_pool` (`for _ in range(pop_size - top)`):
two selections, rank inversion `r := pop_size - r + 1`, the dynamic
`mutation_prob = mutation_rate * (np.mean([r1, r2]) / pop_size)` (0 stands for
the never-read `None` of the static branch), then crossover and mutation.
`none` embeds the crash of `x1, r1 = self.select(...)` on a `None` selection. -/
def breed_children (g : GAState) (mode : String) (sel : Selection) (dynamic : Bool)
    (mutation_rate : ℚ) (sorted_pop : List Ind) (summation : ℚ) (σ : ℕ → ℚ) :
    ℕ → ℕ → Option (List Ind × ℕ)
  | 0, k => some ([], k)
  | n + 1, k =>
    match select_fn g mode sel sorted_pop summation (σ k) with
    | none => none
    | some (x1, r1) =>
      match select_fn g mode sel sorted_pop summation (σ (k + 1)) with
      | none => none
      | some (x2, r2) =>
        let r1' : ℚ := (g.pop_size : ℚ) - r1 + 1
        let r2' : ℚ := (g.pop_size : ℚ) - r2 + 1
        let mutation_prob := if dynamic then mutation_rate * (((r1' + r2') / 2) / g.pop_size) else 0
        let x_new := crossover x1 x2
        let (child, k') := mutation g dynamic mutation_rate x_new mutation_prob σ (k + 2)
        match breed_children g mode sel dynamic mutation_rate sorted_pop summation σ n k' with
        | none => none
        | some (rest, k'') => some (child :: rest, k'')

/-- Elitism loop of `_mating_pool`
(`for x in range(1, top + 1): mpool.append(sorted_pop[-x])`): the `top` best
individuals of the sorted population, best first.  A Python negative index out
of range would be an `IndexError`; the default is junk for that case, which is
unreachable once `run` has validated `top ≤ pop_size`. -/
def elites (sorted_pop : List Ind) (top : ℕ) : List Ind :=
  (List.range top).map (fun x => sorted_pop.getD (sorted_pop.length - (x + 1)) [])

/-- Embedding of `_mating_pool`: sort, precompute `summation`, breed
`pop_size - top` children, append the `top` elites. -/
def mating_pool (g : GAState) (mode : String) (sel : Selection) (dynamic : Bool)
    (mutation_rate : ℚ) (top : ℕ) (population : List Ind) (σ : ℕ → ℚ) (k : ℕ) :
    Option (List Ind × ℕ) :=
  let sorted_pop := sort_pop g mode population
  let summation := summation_of g mode sel population
  match breed_children g mode sel dynamic mutation_rate sorted_pop summation σ
      (g.pop_size - top) k with
  | none => none
  | some (children, k') => some (children ++ elites sorted_pop top, k')

/-- Computable floor of a rational: `q.num / q.den` with euclidean integer
division (the denominator is positive, so this is the floor). -/
def ratFloor (q : ℚ) : ℤ := q.num / (q.den : ℤ)

/-- Rounding a rational to the nearest integer, ties to even — the tie-breaking
rule of Python's `round`. -/
def roundHalfEven (q : ℚ) : ℤ :=
  let n := ratFloor q
  let f := q - n
  if f < 1 / 2 then n
  else if 1 / 2 < f then n + 1
  else if n % 2 = 0 then n else n + 1

/-- Embedding of Python `round(x, p)`: half-to-even rounding at `p` decimal
digits, idealized on exact rationals. -/
def pyRound (q : ℚ) (p : ℕ) : ℚ := (roundHalfEven (q * 10 ^ p) : ℚ) / 10 ^ p

/-- The recorded convergence observation of one generation:
`round(self.model_predict(self._sort_pop(self.population)[-1]), self._precision)`.
(`[-1]` of an empty list is an `IndexError`; the default is junk for that
unreachable case, since `pop_size ≥ 1` in any real run.) -/
def record_best (g : GAState) (mode : String) (population : List Ind) : ℚ :=
  pyRound (model_predict g ((sort_pop g mode population).getLastD [])) g.precision

/-- The generation loop of `run`: per iteration, record the best raw prediction
of the current population (pre-breeding), then replace the population by
`_mating_pool()`.  Returns the final `(population, cursor)` state and the
convergence history, or `none` when a generation crashed. -/
def run_loop (g : GAState) (mode : String) (sel : Selection) (dynamic : Bool)
    (mutation_rate : ℚ) (top : ℕ) (σ : ℕ → ℚ) :
    ℕ → List Ind × ℕ → Option ((List Ind × ℕ) × List ℚ)
  | 0, s => some (s, [])
  | n + 1, (population, k) =>
    let best := record_best g mode population
    match mating_pool g mode sel dynamic mutation_rate top population σ k with
    | none => none
    | some s' =>
      match run_loop g mode sel dynamic mutation_rate top σ n s' with
      | none => none
      | some (sf, hist) => some (sf, best :: hist)

/-- Population reached after `n` generational transitions (the value of
`self.population` entering generation `n`), with the stream cursor. -/
def states (g : GAState) (mode : String) (sel : Selection) (dynamic : Bool)
    (mutation_rate : ℚ) (top : ℕ) (σ : ℕ → ℚ) :
    ℕ → List Ind × ℕ → Option (List Ind × ℕ)
  | 0, s => some s
  | n + 1, (population, k) =>
    match mating_pool g mode sel dynamic mutation_rate top population σ k with
    | none => none
    | some s' => states g mode sel dynamic mutation_rate top σ n s'

/-- Embedding of `run`.  In source order: `self.dynamic := boltzmann`,
`self.mutation_rate := exploration`, selection-name validation
(`ValueError` on anything but `'roulette'`/`'rank'`), the `keep_top > pop_size`
fallback to `1`, mode validation (`ValueError` on anything but
`'maximize'`/`'minimize'`), then the generation loop, and finally the best
individual of the sorted final population together with the history.
`self.population` is the explicit `population` argument here (instance state in
the source); the unconsumed stream cursor is returned alongside. -/
def run (g : GAState) (mode : String) (select : String) (boltzmann : Bool)
    (generations : ℕ) (exploration : ℚ) (keep_top : ℕ) (population : List Ind)
    (σ : ℕ → ℚ) (k : ℕ) : Except GAErr (Ind × List ℚ) :=
  let dynamic := boltzmann
  let mutation_rate := exploration
  if select = "roulette" ∨ select = "rank" then
    let sel : Selection := if select = "roulette" then .roulette else .rank
    let top := if keep_top > g.pop_size then 1 else keep_top
    if mode ≠ "maximize" ∧ mode ≠ "minimize" then .error .configurationError
    else
      match run_loop g mode sel dynamic mutation_rate top σ generations (population, k) with
      | none => .error .selectionFailure
      | some ((popF, _), best_hist) =>
        .ok ((sort_pop g mode popF).getLastD [], best_hist)
  else .error .configurationError

/-! ### Bounds invariant: supporting lemmas -/

/-- An individual is in bounds when it has one value per configured boundary
and each value lies in that boundary's closed interval. -/
def in_bounds (g : GAState) (ind : Ind) : Prop :=
  List.Forall₂ (fun v b => b.1 ≤ v ∧ v ≤ b.2) ind g.boundaries

theorem uniform_mem {lo hi u : ℚ} (hlo : lo ≤ hi) (h0 : 0 ≤ u) (h1 : u < 1) :
    lo ≤ uniform lo hi u ∧ uniform lo hi u ≤ hi := by
  unfold uniform
  constructor
  · nlinarith
  · nlinarith

theorem clamp_mem {x lo hi : ℚ} (hlo : lo ≤ hi) :
    lo ≤ clamp x lo hi ∧ clamp x lo hi ≤ hi := by
  unfold clamp
  constructor
  · exact le_min (le_max_right x lo) hlo
  · exact min_le_right _ _

theorem draw_vals_forall₂ (σ : ℕ → ℚ) (hσ : UniformSource σ) :
    ∀ (bs : List (ℚ × ℚ)) (k : ℕ), (∀ b ∈ bs, b.1 ≤ b.2) →
      List.Forall₂ (fun v b => b.1 ≤ v ∧ v ≤ b.2) (draw_vals σ bs k).1 bs := by
  intro bs
  induction bs with
  | nil => intro k _; exact List.Forall₂.nil
  | cons b rest ih =>
    intro k hb
    obtain ⟨lo, hi⟩ := b
    have hlohi : lo ≤ hi := hb (lo, hi) (List.mem_cons_self _ _)
    have hu := hσ k
    simp only [draw_vals]
    exact List.Forall₂.cons (uniform_mem hlohi hu.1 hu.2)
      (ih (k + 1) (fun b hbmem => hb b (List.mem_cons_of_mem _ hbmem)))

theorem init_pop_go_in_bounds (g : GAState) (σ : ℕ → ℚ) (hσ : UniformSource σ)
    (hb : ∀ b ∈ g.boundaries, b.1 ≤ b.2) :
    ∀ (n k : ℕ), ∀ ind ∈ (init_pop_go g σ n k).1, in_bounds g ind := by
  intro n
  induction n with
  | zero => intro k ind h; simp [init_pop_go] at h
  | succ m ih =>
    intro k ind h
    simp only [init_pop_go, List.mem_cons] at h
    rcases h with h | h
    · subst h; exact draw_vals_forall₂ σ hσ g.boundaries k hb
    · exact ih _ ind h

theorem crossover_forall₂ :
    ∀ (bs : List (ℚ × ℚ)) (a b : List ℚ),
      List.Forall₂ (fun v bd => bd.1 ≤ v ∧ v ≤ bd.2) a bs →
      List.Forall₂ (fun v bd => bd.1 ≤ v ∧ v ≤ bd.2) b bs →
      List.Forall₂ (fun v bd => bd.1 ≤ v ∧ v ≤ bd.2) (crossover a b) bs := by
  intro bs
  induction bs with
  | nil =>
    intro a b ha hb
    cases ha; cases hb
    exact List.Forall₂.nil
  | cons bd bds ih =>
    intro a b ha hb
    cases ha with
    | cons hv ha' =>
      cases hb with
      | cons hv2 hb' =>
        refine List.Forall₂.cons ?_ (ih _ _ ha' hb')
        constructor
        · have := hv.1; have := hv2.1; linarith
        · have := hv.2; have := hv2.2; linarith

theorem crossover_in_bounds {g : GAState} {a b : Ind}
    (ha : in_bounds g a) (hb : in_bounds g b) : in_bounds g (crossover a b) :=
  crossover_forall₂ g.boundaries a b ha hb

theorem mutation_go_in_bounds (σ : ℕ → ℚ) (rate : ℚ) :
    ∀ (ind : List ℚ) (bs : List (ℚ × ℚ)) (k : ℕ),
      ind.length = bs.length → (∀ b ∈ bs, b.1 ≤ b.2) →
      List.Forall₂ (fun v b => b.1 ≤ v ∧ v ≤ b.2) (mutation_go σ rate ind bs k).1 bs := by
  intro ind
  induction ind with
  | nil =>
    intro bs k hlen _
    cases bs with
    | nil => exact List.Forall₂.nil
    | cons b bs => simp at hlen
  | cons v vs ih =>
    intro bs k hlen hb
    cases bs with
    | nil => simp at hlen
    | cons b bs =>
      obtain ⟨lo, hi⟩ := b
      have hlohi : lo ≤ hi := hb (lo, hi) (List.mem_cons_self _ _)
      simp only [mutation_go]
      exact List.Forall₂.cons (clamp_mem hlohi)
        (ih bs (k + 1) (by simpa using hlen) (fun b hbm => hb b (List.mem_cons_of_mem _ hbm)))

theorem mutation_go_length (σ : ℕ → ℚ) (rate : ℚ) :
    ∀ (ind : List ℚ) (bs : List (ℚ × ℚ)) (k : ℕ),
      (mutation_go σ rate ind bs k).1.length = ind.length := by
  intro ind
  induction ind with
  | nil => intro bs k; cases bs <;> simp [mutation_go]
  | cons v vs ih =>
    intro bs k
    cases bs with
    | nil => simp [mutation_go]
    | cons b bs => obtain ⟨lo, hi⟩ := b; simp [mutation_go, ih]

theorem in_bounds_length {g : GAState} {ind : Ind} (h : in_bounds g ind) :
    ind.length = g.boundaries.length :=
  List.Forall₂.length_eq h

/-- A selection walk only ever returns an element of the walked list. -/
theorem rank_select_go_mem {summation draw : ℚ} :
    ∀ {l : List Ind} {c : ℚ} {idx : ℕ} {x : Ind} {r : ℕ},
      rank_select_go summation draw l c idx = some (x, r) → x ∈ l := by
  intro l
  induction l with
  | nil => intro c idx x r h; simp [rank_select_go] at h
  | cons y ys ih =>
    intro c idx x r h
    simp only [rank_select_go] at h
    split at h
    · simp only [Option.some.injEq, Prod.mk.injEq] at h
      exact h.1 ▸ List.mem_cons_self _ _
    · exact List.mem_cons_of_mem _ (ih h)

theorem roulette_go_mem {g : GAState} {mode : String} {offset summation draw : ℚ} :
    ∀ {l : List Ind} {c : ℚ} {idx : ℕ} {x : Ind} {r : ℕ},
      roulette_go g mode offset summation draw l c idx = some (x, r) → x ∈ l := by
  intro l
  induction l with
  | nil => intro c idx x r h; simp [roulette_go] at h
  | cons y ys ih =>
    intro c idx x r h
    simp only [roulette_go] at h
    split at h
    · simp only [Option.some.injEq, Prod.mk.injEq] at h
      exact h.1 ▸ List.mem_cons_self _ _
    · exact List.mem_cons_of_mem _ (ih h)

theorem select_fn_mem {g : GAState} {mode : String} {sel : Selection}
    {sorted_pop : List Ind} {summation draw : ℚ} {x : Ind} {r : ℕ}
    (h : select_fn g mode sel sorted_pop summation draw = some (x, r)) :
    x ∈ sorted_pop := by
  cases sel with
  | rank => exact rank_select_go_mem h
  | roulette =>
    simp only [select_fn, roulette_select] at h
    split at h
    · cases h
    · exact roulette_go_mem h

theorem sort_pop_perm (g : GAState) (mode : String) (population : List Ind) :
    List.Perm (sort_pop g mode population) population :=
  List.perm_insertionSort _ _

theorem mem_sort_pop {g : GAState} {mode : String} {population : List Ind} {x : Ind} :
    x ∈ sort_pop g mode population ↔ x ∈ population :=
  (sort_pop_perm g mode population).mem_iff

theorem elites_subset {sorted_pop : List Ind} {top : ℕ} (htop : top ≤ sorted_pop.length) :
    ∀ e ∈ elites sorted_pop top, e ∈ sorted_pop := by
  intro e he
  simp only [elites, List.mem_map, List.mem_range] at he
  obtain ⟨x, hx, rfl⟩ := he
  have hidx : sorted_pop.length - (x + 1) < sorted_pop.length := by omega
  rw [List.getD_eq_getElem sorted_pop [] hidx]
  exact List.getElem_mem hidx

theorem breed_children_in_bounds {g : GAState} {mode : String} {sel : Selection}
    {dynamic : Bool} {mutation_rate : ℚ} {sorted_pop : List Ind} {summation : ℚ}
    {σ : ℕ → ℚ} (hb : ∀ b ∈ g.boundaries, b.1 ≤ b.2)
    (hpop : ∀ ind ∈ sorted_pop, in_bounds g ind) :
    ∀ (n k : ℕ) (children : List Ind) (k' : ℕ),
      breed_children g mode sel dynamic mutation_rate sorted_pop summation σ n k =
        some (children, k') →
      ∀ c ∈ children, in_bounds g c := by
  intro n
  induction n with
  | zero =>
    intro k children k' h c hc
    simp only [breed_children, Option.some.injEq, Prod.mk.injEq] at h
    rw [← h.1] at hc
    simp at hc
  | succ m ih =>
    intro k children k' h c hc
    simp only [breed_children] at h
    cases heq1 : select_fn g mode sel sorted_pop summation (σ k) with
    | none => simp only [heq1] at h; cases h
    | some p1 =>
      obtain ⟨x1, r1⟩ := p1
      simp only [heq1] at h
      cases heq2 : select_fn g mode sel sorted_pop summation (σ (k + 1)) with
      | none => simp only [heq2] at h; cases h
      | some p2 =>
        obtain ⟨x2, r2⟩ := p2
        simp only [heq2] at h
        cases hrest : breed_children g mode sel dynamic mutation_rate sorted_pop summation σ m
            (mutation g dynamic mutation_rate (crossover x1 x2)
              (if dynamic = true then
                mutation_rate *
                  (((g.pop_size : ℚ) - r1 + 1 + ((g.pop_size : ℚ) - r2 + 1)) / 2 / g.pop_size)
              else 0) σ (k + 2)).2 with
        | none => simp only [hrest] at h; cases h
        | some rest =>
          obtain ⟨restl, k''⟩ := rest
          simp only [hrest, Option.some.injEq, Prod.mk.injEq] at h
          rw [← h.1] at hc
          rcases List.mem_cons.mp hc with hc | hc
          · subst hc
            have hx1 : in_bounds g x1 := hpop x1 (select_fn_mem heq1)
            have hx2 : in_bounds g x2 := hpop x2 (select_fn_mem heq2)
            have hxlen : (crossover x1 x2).length = g.boundaries.length :=
              in_bounds_length (crossover_in_bounds hx1 hx2)
            exact mutation_go_in_bounds σ _ (crossover x1 x2) g.boundaries _ hxlen hb
          · exact ih _ _ _ hrest c hc

theorem mating_pool_in_bounds {g : GAState} {mode : String} {sel : Selection}
    {dynamic : Bool} {mutation_rate : ℚ} {top : ℕ} {population : List Ind}
    {σ : ℕ → ℚ} {k : ℕ} {newpop : List Ind} {k' : ℕ}
    (hb : ∀ b ∈ g.boundaries, b.1 ≤ b.2)
    (hpop : ∀ ind ∈ population, in_bounds g ind)
    (htop : top ≤ population.length)
    (h : mating_pool g mode sel dynamic mutation_rate top population σ k =
      some (newpop, k')) :
    ∀ ind ∈ newpop, in_bounds g ind := by
  intro ind hind
  simp only [mating_pool] at h
  cases hres : breed_children g mode sel dynamic mutation_rate (sort_pop g mode population)
      (summation_of g mode sel population) σ (g.pop_size - top) k with
  | none => simp only [hres] at h; cases h
  | some res =>
    obtain ⟨children, kc⟩ := res
    simp only [hres, Option.some.injEq, Prod.mk.injEq] at h
    rw [← h.1] at hind
    have hsorted : ∀ x ∈ sort_pop g mode population, in_bounds g x :=
      fun x hx => hpop x (mem_sort_pop.mp hx)
    rcases List.mem_append.mp hind with hc | he
    · exact breed_children_in_bounds hb hsorted _ _ _ _ hres ind hc
    · have hlen : top ≤ (sort_pop g mode population).length := by
        rw [(sort_pop_perm g mode population).length_eq]; exact htop
      exact hsorted ind (elites_subset hlen ind he)

/-! ### Population size: supporting lemmas -/

theorem breed_children_length {g : GAState} {mode : String} {sel : Selection}
    {dynamic : Bool} {mutation_rate : ℚ} {sorted_pop : List Ind} {summation : ℚ}
    {σ : ℕ → ℚ} :
    ∀ {n k : ℕ} {children : List Ind} {k' : ℕ},
      breed_children g mode sel dynamic mutation_rate sorted_pop summation σ n k =
        some (children, k') →
      children.length = n := by
  intro n
  induction n with
  | zero =>
    intro k children k' h
    simp only [breed_children, Option.some.injEq, Prod.mk.injEq] at h
    rw [← h.1]
    rfl
  | succ m ih =>
    intro k children k' h
    simp only [breed_children] at h
    cases heq1 : select_fn g mode sel sorted_pop summation (σ k) with
    | none => simp only [heq1] at h; cases h
    | some p1 =>
      obtain ⟨x1, r1⟩ := p1
      simp only [heq1] at h
      cases heq2 : select_fn g mode sel sorted_pop summation (σ (k + 1)) with
      | none => simp only [heq2] at h; cases h
      | some p2 =>
        obtain ⟨x2, r2⟩ := p2
        simp only [heq2] at h
        cases hrest : breed_children g mode sel dynamic mutation_rate sorted_pop summation σ m
            (mutation g dynamic mutation_rate (crossover x1 x2)
              (if dynamic = true then
                mutation_rate *
                  (((g.pop_size : ℚ) - r1 + 1 + ((g.pop_size : ℚ) - r2 + 1)) / 2 / g.pop_size)
              else 0) σ (k + 2)).2 with
        | none => simp only [hrest] at h; cases h
        | some rest =>
          obtain ⟨restl, k''⟩ := rest
          simp only [hrest, Option.some.injEq, Prod.mk.injEq] at h
          rw [← h.1]
          simp [ih hrest]

theorem elites_length (sorted_pop : List Ind) (top : ℕ) :
    (elites sorted_pop top).length = top := by
  simp [elites]

theorem mating_pool_some_eq {g : GAState} {mode : String} {sel : Selection}
    {dynamic : Bool} {mutation_rate : ℚ} {top : ℕ} {population : List Ind}
    {σ : ℕ → ℚ} {k : ℕ} {newpop : List Ind} {k' : ℕ}
    (h : mating_pool g mode sel dynamic mutation_rate top population σ k =
      some (newpop, k')) :
    ∃ children, breed_children g mode sel dynamic mutation_rate
        (sort_pop g mode population) (summation_of g mode sel population) σ
        (g.pop_size - top) k = some (children, k') ∧
      newpop = children ++ elites (sort_pop g mode population) top := by
  simp only [mating_pool] at h
  cases hres : breed_children g mode sel dynamic mutation_rate (sort_pop g mode population)
      (summation_of g mode sel population) σ (g.pop_size - top) k with
  | none => simp only [hres] at h; cases h
  | some res =>
    obtain ⟨children, kc⟩ := res
    simp only [hres, Option.some.injEq, Prod.mk.injEq] at h
    exact ⟨children, by rw [← h.2], h.1.symm⟩

theorem mating_pool_length {g : GAState} {mode : String} {sel : Selection}
    {dynamic : Bool} {mutation_rate : ℚ} {top : ℕ} {population : List Ind}
    {σ : ℕ → ℚ} {k : ℕ} {newpop : List Ind} {k' : ℕ}
    (htop : top ≤ g.pop_size)
    (h : mating_pool g mode sel dynamic mutation_rate top population σ k =
      some (newpop, k')) :
    newpop.length = g.pop_size := by
  obtain ⟨children, hres, rfl⟩ := mating_pool_some_eq h
  have h1 := breed_children_length hres
  have h2 := elites_length (sort_pop g mode population) top
  simp only [List.length_append, h1, h2]
  omega

/-- Invariant preserved over the whole run: the population keeps size
`pop_size` and stays in bounds through every generational transition. -/
theorem states_invariant {g : GAState} {mode : String} {sel : Selection}
    {dynamic : Bool} {mutation_rate : ℚ} {top : ℕ} {σ : ℕ → ℚ}
    (hb : ∀ b ∈ g.boundaries, b.1 ≤ b.2) (htop : top ≤ g.pop_size) :
    ∀ {n : ℕ} {population : List Ind} {k : ℕ} {p : List Ind} {k' : ℕ},
      population.length = g.pop_size → (∀ ind ∈ population, in_bounds g ind) →
      states g mode sel dynamic mutation_rate top σ n (population, k) = some (p, k') →
      p.length = g.pop_size ∧ ∀ ind ∈ p, in_bounds g ind := by
  intro n
  induction n with
  | zero =>
    intro population k p k' hlen hpop h
    simp only [states, Option.some.injEq, Prod.mk.injEq] at h
    rw [← h.1]
    exact ⟨hlen, hpop⟩
  | succ m ih =>
    intro population k p k' hlen hpop h
    simp only [states] at h
    cases hmp : mating_pool g mode sel dynamic mutation_rate top population σ k with
    | none => simp only [hmp] at h; cases h
    | some s' =>
      obtain ⟨pop', k1⟩ := s'
      simp only [hmp] at h
      have hlen' : pop'.length = g.pop_size := mating_pool_length htop hmp
      have hpop' : ∀ ind ∈ pop', in_bounds g ind :=
        mating_pool_in_bounds hb hpop (hlen ▸ htop) hmp
      exact ih hlen' hpop' h

/-! ### Witness fixtures: a tiny concrete optimizer -/

/-- One parameter `a` with bounds `(0, 10)`, the evaluator
`lambda ind: ind['a']`, population size 1. -/
def gW : GAState :=
  { model := .fn (fun l => l.headD 0), parameters := ["a"], boundaries := [(0, 10)],
    X_scale := none, y_scale := none, pop_size := 1, precision := 5 }

/-- A concrete raw-draw stream: every draw is `1/2`. -/
def σW : ℕ → ℚ := fun _ => 1 / 2

theorem σW_uniform : UniformSource σW := by
  intro n
  constructor <;> norm_num [σW]

theorem gW_bounds : ∀ b ∈ gW.boundaries, b.1 ≤ b.2 := by
  intro b hb
  simp only [gW, List.mem_singleton] at hb
  subst hb
  norm_num

/-! ### Claim C1 -/

/-- C1 (confirmed): every individual ever present in the population satisfies
`lo ≤ value ≤ hi` for each parameter's configured bounds: (i) initialization
draws each value uniformly from `[lo, hi]`, hence in bounds; (ii) crossover of
two in-bound parents yields in-bound values (arithmetic mean); (iii) mutation
clamps each perturbed value back into that parameter's `[lo, hi]`; and hence
(iv) every population reached during a run from an in-bound initial population
consists of in-bound individuals only. -/
theorem claim_C1 (g : GAState) (σ : ℕ → ℚ)
    (hb : ∀ b ∈ g.boundaries, b.1 ≤ b.2) (hσ : UniformSource σ) :
    (∀ (size k : ℕ) (pop : List Ind) (k' : ℕ),
       initialize_pop g size σ k = .ok (pop, k') → ∀ ind ∈ pop, in_bounds g ind) ∧
    (∀ a b : Ind, in_bounds g a → in_bounds g b → in_bounds g (crossover a b)) ∧
    (∀ (dynamic : Bool) (mutation_rate mutation_prob : ℚ) (ind : Ind) (k : ℕ),
       ind.length = g.boundaries.length →
       in_bounds g (mutation g dynamic mutation_rate ind mutation_prob σ k).1) ∧
    (∀ (mode : String) (sel : Selection) (dynamic : Bool) (mutation_rate : ℚ)
       (top n k k' : ℕ) (pop0 p : List Ind),
       top ≤ g.pop_size → pop0.length = g.pop_size →
       (∀ ind ∈ pop0, in_bounds g ind) →
       states g mode sel dynamic mutation_rate top σ n (pop0, k) = some (p, k') →
       ∀ ind ∈ p, in_bounds g ind) := by
  refine ⟨?_, ?_, ?_, ?_⟩
  · intro size k pop k' h ind hind
    simp only [initialize_pop] at h
    split at h
    · cases h
    · simp only [Except.ok.injEq] at h
      have hpop : (init_pop_go g σ size k).1 = pop := by rw [h]
      rw [← hpop] at hind
      exact init_pop_go_in_bounds g σ hσ hb size k ind hind
  · exact fun a b ha hb' => crossover_in_bounds ha hb'
  · intro dynamic mutation_rate mutation_prob ind k hlen
    exact mutation_go_in_bounds σ _ ind g.boundaries k hlen hb
  · intro mode sel dynamic mutation_rate top n k k' pop0 p htop hlen hpop h
    exact (states_invariant hb htop hlen hpop h).2

/-- Witness for C1 at the concrete fixture optimizer. -/
theorem claim_C1_witness :
    (∀ (size k : ℕ) (pop : List Ind) (k' : ℕ),
       initialize_pop gW size σW k = .ok (pop, k') → ∀ ind ∈ pop, in_bounds gW ind) ∧
    (∀ a b : Ind, in_bounds gW a → in_bounds gW b → in_bounds gW (crossover a b)) ∧
    (∀ (dynamic : Bool) (mutation_rate mutation_prob : ℚ) (ind : Ind) (k : ℕ),
       ind.length = gW.boundaries.length →
       in_bounds gW (mutation gW dynamic mutation_rate ind mutation_prob σW k).1) ∧
    (∀ (mode : String) (sel : Selection) (dynamic : Bool) (mutation_rate : ℚ)
       (top n k k' : ℕ) (pop0 p : List Ind),
       top ≤ gW.pop_size → pop0.length = gW.pop_size →
       (∀ ind ∈ pop0, in_bounds gW ind) →
       states gW mode sel dynamic mutation_rate top σW n (pop0, k) = some (p, k') →
       ∀ ind ∈ p, in_bounds gW ind) :=
  claim_C1 gW σW gW_bounds σW_uniform

/-! ### Claim C9 -/

/-- C9 (confirmed): whenever a generational transition completes with
`pop_size ≥ keepTop ≥ 1`, the new population built by the mating pool has
length exactly `pop_size`, and consists of `pop_size - keep_top` bred children
followed by the `keep_top` elite individuals taken from the previous sorted
population (each of which is a member of the previous population). -/
theorem claim_C9 {g : GAState} {mode : String} {sel : Selection} {dynamic : Bool}
    {mutation_rate : ℚ} {top : ℕ} {population : List Ind} {σ : ℕ → ℚ} {k : ℕ}
    {newpop : List Ind} {k' : ℕ}
    (hlen : population.length = g.pop_size) (htop1 : 1 ≤ top) (htop2 : top ≤ g.pop_size)
    (h : mating_pool g mode sel dynamic mutation_rate top population σ k =
      some (newpop, k')) :
    newpop.length = g.pop_size ∧
    ∃ children, newpop = children ++ elites (sort_pop g mode population) top ∧
      children.length = g.pop_size - top ∧
      (elites (sort_pop g mode population) top).length = top ∧
      ∀ e ∈ elites (sort_pop g mode population) top, e ∈ population := by
  obtain ⟨children, hres, heq⟩ := mating_pool_some_eq h
  refine ⟨mating_pool_length htop2 h, children, heq, breed_children_length hres,
    elites_length _ _, ?_⟩
  intro e he
  have hlens : top ≤ (sort_pop g mode population).length := by
    rw [(sort_pop_perm g mode population).length_eq, hlen]
    exact htop2
  exact mem_sort_pop.mp (elites_subset hlens e he)

/-- Witness for C9: one concrete transition of the fixture optimizer. -/
theorem claim_C9_witness :
    ([[5]] : List Ind).length = gW.pop_size ∧
    ∃ children, ([[5]] : List Ind) = children ++ elites (sort_pop gW "maximize" [[5]]) 1 ∧
      children.length = gW.pop_size - 1 ∧
      (elites (sort_pop gW "maximize" [[5]]) 1).length = 1 ∧
      ∀ e ∈ elites (sort_pop gW "maximize" [[5]]) 1, e ∈ ([[5]] : List Ind) :=
  claim_C9 (by norm_num [gW]) (le_refl 1) (by norm_num [gW])
    (show mating_pool gW "maximize" .rank true (1/4) 1 [[5]] σW 0 = some ([[5]], 0) by
      norm_num [mating_pool, breed_children, sort_pop, summation_of, elites, gW, σW,
        List.insertionSort])

/-! ### Claim C10: rank selection is total -/

/-- Probability mass that the rank walk still has in front of it: the weights
`(idx + j) / S` of the next `len` positions. -/
def rank_mass (S : ℚ) (idx len : ℕ) : ℚ :=
  ((List.range len).map (fun j => ((idx + j : ℕ) : ℚ) / S)).sum

theorem rank_mass_zero (S : ℚ) (idx : ℕ) : rank_mass S idx 0 = 0 := by
  simp [rank_mass]

theorem rank_mass_succ (S : ℚ) (idx len : ℕ) :
    rank_mass S idx (len + 1) = (idx : ℚ) / S + rank_mass S (idx + 1) len := by
  simp only [rank_mass, List.range_succ_eq_map, List.map_cons, List.sum_cons,
    List.map_map, Nat.add_zero]
  congr 1
  refine congrArg List.sum (List.map_congr_left ?_)
  intro j _
  simp only [Function.comp_apply]
  push_cast
  ring

theorem list_sum_div (S : ℚ) : ∀ l : List ℚ, (l.map (fun x => x / S)).sum = l.sum / S := by
  intro l
  induction l with
  | nil => simp
  | cons x xs ih => simp [ih, add_div]

theorem rank_mass_eq_div (S : ℚ) (n : ℕ) :
    rank_mass S 1 n = ((List.range n).map (fun i => ((i + 1 : ℕ) : ℚ))).sum / S := by
  rw [rank_mass, ← list_sum_div, List.map_map]
  refine congrArg List.sum (List.map_congr_left ?_)
  intro j _
  simp only [Function.comp_apply]
  push_cast
  ring

theorem range_sum_gauss (n : ℕ) :
    ((List.range n).map (fun i => ((i + 1 : ℕ) : ℚ))).sum = n * (n + 1) / 2 := by
  induction n with
  | zero => simp
  | succ m ih =>
    rw [List.range_succ, List.map_append, List.sum_append, ih]
    simp only [List.map_cons, List.map_nil, List.sum_cons, List.sum_nil, add_zero]
    push_cast
    ring

theorem rank_select_go_total (S draw : ℚ) :
    ∀ (l : List Ind) (c : ℚ) (idx : ℕ), l ≠ [] →
      draw ≤ c + rank_mass S idx l.length →
      ∃ x r, rank_select_go S draw l c idx = some (x, r) ∧
        idx ≤ r ∧ r ≤ idx + l.length - 1 ∧ x ∈ l := by
  intro l
  induction l with
  | nil => intro c idx hne _; exact absurd rfl hne
  | cons x xs ih =>
    intro c idx _ hmass
    by_cases hd : draw ≤ c + idx / S
    · refine ⟨x, idx, ?_, le_refl idx, by simp only [List.length_cons]; omega,
        List.mem_cons_self _ _⟩
      show (if draw ≤ c + idx / S then some (x, idx)
        else rank_select_go S draw xs (c + idx / S) (idx + 1)) = some (x, idx)
      rw [if_pos hd]
    · cases xs with
      | nil =>
        exfalso
        rw [List.length_singleton, rank_mass_succ, rank_mass_zero, add_zero] at hmass
        exact hd (by linarith)
      | cons y ys =>
        rw [List.length_cons, rank_mass_succ, ← add_assoc] at hmass
        obtain ⟨x', r, hgo, hr1, hr2, hmem⟩ :=
          ih (c + idx / S) (idx + 1) (List.cons_ne_nil y ys) hmass
        refine ⟨x', r, ?_, by omega, ?_, List.mem_cons_of_mem _ hmem⟩
        · show (if draw ≤ c + idx / S then some (x, idx)
            else rank_select_go S draw (y :: ys) (c + idx / S) (idx + 1)) = some (x', r)
          rw [if_neg hd]
          exact hgo
        · simp only [List.length_cons] at hr2 ⊢
          omega

/-- Totality of `rank_select` on a non-empty sorted population with the exact
rank summation: the helper behind claim C10, reused by the run-totality
lemmas. -/
theorem rank_select_total {sorted_pop : List Ind} {S u : ℚ} (hne : sorted_pop ≠ [])
    (h0 : 0 ≤ u) (h1 : u < 1)
    (hS : S = (sorted_pop.length : ℚ) * (sorted_pop.length + 1) / 2) :
    ∃ x r, rank_select sorted_pop S u = some (x, r) ∧
      1 ≤ r ∧ r ≤ sorted_pop.length ∧ x ∈ sorted_pop := by
  have hn : 1 ≤ sorted_pop.length := List.length_pos.mpr hne
  have hn' : (1 : ℚ) ≤ (sorted_pop.length : ℚ) := by exact_mod_cast hn
  have hSpos : 0 < S := by rw [hS]; nlinarith
  have hmass : rank_mass S 1 sorted_pop.length = 1 := by
    rw [rank_mass_eq_div, range_sum_gauss, ← hS, div_self (ne_of_gt hSpos)]
  obtain ⟨x, r, hgo, hr1, hr2, hmem⟩ :=
    rank_select_go_total S u sorted_pop 0 1 hne (by rw [hmass]; linarith)
  exact ⟨x, r, hgo, hr1, by omega, hmem⟩

/-- C10 (confirmed): on a non-empty sorted population with the rank summation
`n * (n + 1) / 2` and any draw in `[0, 1)`, `rank_select` always returns an
individual of the population with a 1-based rank between 1 and `n`: the
cumulative rank weights reach exactly 1 at the last index, so the loop's
fall-through (returning `None`) is unreachable. -/
theorem claim_C10 {sorted_pop : List Ind} {S u : ℚ} (hne : sorted_pop ≠ [])
    (h0 : 0 ≤ u) (h1 : u < 1)
    (hS : S = (sorted_pop.length : ℚ) * (sorted_pop.length + 1) / 2) :
    ∃ x r, rank_select sorted_pop S u = some (x, r) ∧
      1 ≤ r ∧ r ≤ sorted_pop.length ∧ x ∈ sorted_pop :=
  rank_select_total hne h0 h1 hS

/-- Witness for C10: a two-individual sorted population, draw `1/2`; the walk
returns the second individual with rank 2. -/
theorem claim_C10_witness :
    ∃ x r, rank_select ([[3], [5]] : List Ind) 3 (1 / 2) = some (x, r) ∧
      1 ≤ r ∧ r ≤ ([[3], [5]] : List Ind).length ∧ x ∈ ([[3], [5]] : List Ind) :=
  claim_C10 (by simp) (by norm_num) (by norm_num) (by norm_num)

/-! ### Sortedness of `_sort_pop` -/

theorem sort_pop_pairwise (g : GAState) (mode : String) (population : List Ind) :
    List.Pairwise (fun a b => model_fitness g mode a ≤ model_fitness g mode b)
      (sort_pop g mode population) := by
  haveI : IsTotal Ind (fun a b => model_fitness g mode a ≤ model_fitness g mode b) :=
    ⟨fun a b => le_total _ _⟩
  haveI : IsTrans Ind (fun a b => model_fitness g mode a ≤ model_fitness g mode b) :=
    ⟨fun _ _ _ hab hbc => le_trans hab hbc⟩
  exact List.sorted_insertionSort _ population

theorem pairwise_headD_min {r : Ind → Ind → Prop} (hrefl : ∀ x, r x x) :
    ∀ {l : List Ind}, List.Pairwise r l → ∀ y ∈ l, r (l.headD []) y := by
  intro l hp y hy
  cases l with
  | nil => cases hy
  | cons x xs =>
    rcases List.mem_cons.mp hy with h | h
    · subst h; exact hrefl _
    · exact (List.pairwise_cons.mp hp).1 y h

theorem getLastD_cons_cons (x y : Ind) (ys : List Ind) :
    (x :: y :: ys).getLastD [] = (y :: ys).getLastD [] := by
  rw [List.getLastD_eq_getLast?, List.getLast?_cons_cons, ← List.getLastD_eq_getLast?]

theorem getLastD_mem : ∀ (l : List Ind), l ≠ [] → l.getLastD [] ∈ l := by
  intro l
  induction l with
  | nil => intro h; exact absurd rfl h
  | cons x xs ih =>
    intro _
    cases xs with
    | nil => simp [List.getLastD]
    | cons y ys =>
      rw [getLastD_cons_cons]
      exact List.mem_cons_of_mem _ (ih (by simp))

theorem pairwise_getLastD_max {r : Ind → Ind → Prop} (hrefl : ∀ x, r x x) :
    ∀ {l : List Ind}, List.Pairwise r l → ∀ y ∈ l, r y (l.getLastD []) := by
  intro l
  induction l with
  | nil => intro _ y hy; cases hy
  | cons x xs ih =>
    intro hp y hy
    cases xs with
    | nil =>
      rcases List.mem_cons.mp hy with h | h
      · subst h; simp only [List.getLastD]; exact hrefl _
      · cases h
    | cons z zs =>
      rw [getLastD_cons_cons]
      obtain ⟨hx, hp'⟩ := List.pairwise_cons.mp hp
      rcases List.mem_cons.mp hy with h | h
      · subst h
        exact hx _ (getLastD_mem (z :: zs) (by simp))
      · exact ih hp' y h

/-- The individual recorded by the run loop (`sorted_pop[-1]`) has maximal
fitness in the population. -/
theorem sorted_last_max {g : GAState} {mode : String} {population : List Ind}
    (y : Ind) (hy : y ∈ population) :
    model_fitness g mode y ≤
      model_fitness g mode ((sort_pop g mode population).getLastD []) :=
  pairwise_getLastD_max (fun x => le_refl (model_fitness g mode x))
    (sort_pop_pairwise g mode population) y (mem_sort_pop.mpr hy)

/-! ### Claim C3: roulette weights -/

/-- The per-individual weights walked by `roulette_select`:
`(fitness + offset) / (summation + offset * n)` in sorted order (when the
worst fitness is non-negative the offset is `0` and the denominator is the
plain `summation`). -/
def roulette_weights (g : GAState) (mode : String) (sorted_pop : List Ind)
    (summation : ℚ) : List ℚ :=
  sorted_pop.map (fun x =>
    (model_fitness g mode x + roulette_offset g mode sorted_pop) /
      (summation + roulette_offset g mode sorted_pop * sorted_pop.length))

theorem sum_map_add_const (f : Ind → ℚ) (c : ℚ) :
    ∀ l : List Ind, (l.map (fun x => f x + c)).sum = (l.map f).sum + l.length * c := by
  intro l
  induction l with
  | nil => simp
  | cons x xs ih =>
    simp only [List.map_cons, List.sum_cons, List.length_cons, ih]
    push_cast
    ring

theorem sum_shift_div (f : Ind → ℚ) (c S : ℚ) :
    ∀ l : List Ind,
      (l.map (fun x => (f x + c) / S)).sum = ((l.map f).sum + l.length * c) / S := by
  intro l
  induction l with
  | nil => simp
  | cons x xs ih =>
    simp only [List.map_cons, List.sum_cons, List.length_cons, ih, div_add_div_same]
    congr 1
    push_cast
    ring

/-- C3 amended (the claim minus its degenerate case): in roulette selection
the offset is `0` when the worst individual's fitness is non-negative and is
the negation of the worst fitness otherwise; and provided the shifted
normalizer `summation + offset * n` is non-zero (equivalently: not all fitness
values are equal to a common non-positive value), every individual's weight
`(fitness + offset) / (summation + offset * n)` is non-negative and the `n`
weights sum to 1. -/
theorem claim_C3_amended {g : GAState} {mode : String} {population : List Ind}
    {sorted_pop : List Ind} {summation : ℚ}
    (hne : population ≠ [])
    (hsp : sorted_pop = sort_pop g mode population)
    (hsum : summation = (population.map (model_fitness g mode)).sum)
    (hden : summation + roulette_offset g mode sorted_pop * sorted_pop.length ≠ 0) :
    (0 ≤ model_fitness g mode (sorted_pop.headD []) →
      roulette_offset g mode sorted_pop = 0) ∧
    (model_fitness g mode (sorted_pop.headD []) < 0 →
      roulette_offset g mode sorted_pop = -(model_fitness g mode (sorted_pop.headD []))) ∧
    (∀ w ∈ roulette_weights g mode sorted_pop summation, 0 ≤ w) ∧
    (roulette_weights g mode sorted_pop summation).sum = 1 := by
  have hsne : sorted_pop ≠ [] := by
    rw [hsp]
    intro hcon
    have := (sort_pop_perm g mode population).length_eq
    rw [hcon] at this
    exact hne (List.length_eq_zero.mp this.symm)
  -- The worst (first) fitness is minimal in the sorted population.
  have hmin : ∀ y ∈ sorted_pop, model_fitness g mode (sorted_pop.headD []) ≤
      model_fitness g mode y := by
    rw [hsp]
    exact pairwise_headD_min (fun x => le_refl (model_fitness g mode x))
      (sort_pop_pairwise g mode population)
  -- Every shifted fitness is non-negative.
  have hshift : ∀ y ∈ sorted_pop,
      0 ≤ model_fitness g mode y + roulette_offset g mode sorted_pop := by
    intro y hy
    unfold roulette_offset
    split
    · have := hmin y hy; linarith
    · have h0 : 0 ≤ model_fitness g mode (sorted_pop.headD []) := by
        next hlt => exact le_of_not_lt hlt
      have := hmin y hy; linarith
  -- The shifted normalizer is the sum of the shifted fitnesses.
  have hsum' : (sorted_pop.map (model_fitness g mode)).sum = summation := by
    rw [hsum, hsp]
    exact ((sort_pop_perm g mode population).map (model_fitness g mode)).sum_eq
  have hdensum : summation + roulette_offset g mode sorted_pop * sorted_pop.length =
      (sorted_pop.map (fun x =>
        model_fitness g mode x + roulette_offset g mode sorted_pop)).sum := by
    rw [sum_map_add_const, hsum']
    ring
  have hdennn : 0 ≤
      summation + roulette_offset g mode sorted_pop * sorted_pop.length := by
    rw [hdensum]
    exact List.sum_nonneg (by
      intro q hq
      obtain ⟨y, hy, rfl⟩ := List.mem_map.mp hq
      exact hshift y hy)
  have hdenpos : 0 <
      summation + roulette_offset g mode sorted_pop * sorted_pop.length :=
    lt_of_le_of_ne hdennn (Ne.symm hden)
  refine ⟨?_, ?_, ?_, ?_⟩
  · intro h0
    unfold roulette_offset
    rw [if_neg (not_lt.mpr h0)]
  · intro hlt
    unfold roulette_offset
    rw [if_pos hlt]
  · intro w hw
    obtain ⟨y, hy, rfl⟩ := List.mem_map.mp hw
    exact div_nonneg (hshift y hy) (le_of_lt hdenpos)
  · unfold roulette_weights
    rw [sum_shift_div, hsum']
    rw [div_eq_one_iff_eq hden]
    ring

/-- A second fixture: the constant-zero evaluator (every fitness is `0`). -/
def gzero : GAState :=
  { model := .fn (fun _ => 0), parameters := ["a"], boundaries := [(0, 10)],
    X_scale := none, y_scale := none, pop_size := 1, precision := 5 }

/-- Counterexample to C3 as stated: with the constant-zero evaluator and the
singleton population `[{a: 0}]`, the precomputed `summation` is `0`, the worst
fitness is `0` so the offset is `0`, and the lone weight is the division
`0 / 0` — in CPython a `ZeroDivisionError`, in this exact embedding the total
division `0 / 0 = 0` — so the weights do not sum to 1. -/
theorem claim_C3_counterexample :
    (roulette_weights gzero "maximize" (sort_pop gzero "maximize" [[0]])
      ((([[0]] : List Ind).map (model_fitness gzero "maximize")).sum)).sum ≠ 1 := by
  norm_num [roulette_weights, roulette_offset, sort_pop, List.insertionSort,
    model_fitness, raw_predict, gzero]

/-- Witness for the amended C3 at a concrete two-individual population. -/
theorem claim_C3_amended_witness :
    (0 ≤ model_fitness gW "maximize" ((sort_pop gW "maximize" [[3], [5]]).headD []) →
      roulette_offset gW "maximize" (sort_pop gW "maximize" [[3], [5]]) = 0) ∧
    (model_fitness gW "maximize" ((sort_pop gW "maximize" [[3], [5]]).headD []) < 0 →
      roulette_offset gW "maximize" (sort_pop gW "maximize" [[3], [5]]) =
        -(model_fitness gW "maximize" ((sort_pop gW "maximize" [[3], [5]]).headD []))) ∧
    (∀ w ∈ roulette_weights gW "maximize" (sort_pop gW "maximize" [[3], [5]])
        ((([[3], [5]] : List Ind).map (model_fitness gW "maximize")).sum), 0 ≤ w) ∧
    (roulette_weights gW "maximize" (sort_pop gW "maximize" [[3], [5]])
      ((([[3], [5]] : List Ind).map (model_fitness gW "maximize")).sum)).sum = 1 :=
  claim_C3_amended (by simp) rfl rfl (by
    norm_num [sort_pop, List.insertionSort, List.orderedInsert, model_fitness,
      raw_predict, gW, roulette_offset,
      show ¬("maximize" : String) = "minimize" from by decide])

/-! ### Rounding half-to-even: algebraic facts -/

theorem ratFloor_eq (q : ℚ) : ratFloor q = ⌊q⌋ := by
  rw [ratFloor]
  conv_rhs => rw [← Rat.num_div_den q]
  rw [Rat.floor_intCast_div_natCast]

theorem roundHalfEven_cases (q : ℚ) :
    roundHalfEven q = ⌊q⌋ ∨ roundHalfEven q = ⌊q⌋ + 1 := by
  unfold roundHalfEven
  simp only [ratFloor_eq]
  split_ifs <;> simp

theorem roundHalfEven_mono {x y : ℚ} (hxy : x ≤ y) :
    roundHalfEven x ≤ roundHalfEven y := by
  rcases lt_or_eq_of_le (Int.floor_le_floor hxy) with hf | hf
  · rcases roundHalfEven_cases x with hx | hx <;>
      rcases roundHalfEven_cases y with hy | hy <;> omega
  · unfold roundHalfEven
    simp only [ratFloor_eq, ← hf]
    split_ifs <;> first | omega | linarith

theorem roundHalfEven_neg (q : ℚ) : roundHalfEven (-q) = -roundHalfEven q := by
  unfold roundHalfEven
  simp only [ratFloor_eq]
  by_cases hint : (⌊q⌋ : ℚ) = q
  · have h1 : ⌊-q⌋ = -⌊q⌋ := by
      conv_lhs => rw [← hint]
      rw [← Int.cast_neg, Int.floor_intCast]
    rw [h1]
    rw [if_pos (show -q - ((-⌊q⌋ : ℤ) : ℚ) < 1 / 2 by push_cast; linarith)]
    rw [if_pos (show q - ((⌊q⌋ : ℤ) : ℚ) < 1 / 2 by push_cast; linarith)]
  · have hlt : (⌊q⌋ : ℚ) < q := lt_of_le_of_ne (Int.floor_le q) hint
    have hup : q < ⌊q⌋ + 1 := Int.lt_floor_add_one q
    have hfn : ⌊-q⌋ = -⌊q⌋ - 1 := by
      rw [Int.floor_eq_iff]
      constructor
      · push_cast; linarith
      · push_cast; linarith
    rw [hfn]
    split_ifs <;> push_cast at * <;> first | omega | linarith

theorem pyRound_mono {x y : ℚ} (p : ℕ) (h : x ≤ y) : pyRound x p ≤ pyRound y p := by
  unfold pyRound
  have h10 : (0 : ℚ) < 10 ^ p := by positivity
  have hr : roundHalfEven (x * 10 ^ p) ≤ roundHalfEven (y * 10 ^ p) :=
    roundHalfEven_mono (mul_le_mul_of_nonneg_right h (le_of_lt h10))
  have : ((roundHalfEven (x * 10 ^ p) : ℤ) : ℚ) ≤ ((roundHalfEven (y * 10 ^ p) : ℤ) : ℚ) := by
    exact_mod_cast hr
  exact (div_le_div_right h10).mpr this

theorem pyRound_neg (x : ℚ) (p : ℕ) : pyRound (-x) p = -pyRound x p := by
  unfold pyRound
  rw [neg_mul, roundHalfEven_neg]
  push_cast
  ring

/-! ### The generational loop: supporting lemmas -/

theorem summation_of_rank (g : GAState) (mode : String) (population : List Ind) :
    summation_of g mode .rank population = (g.pop_size : ℚ) * (g.pop_size + 1) / 2 := by
  simp only [summation_of, range_sum_gauss]

theorem model_fitness_maximize (g : GAState) (ind : Ind) :
    model_fitness g "maximize" ind = raw_predict g ind := by
  simp [model_fitness]

theorem model_fitness_minimize (g : GAState) (ind : Ind) :
    model_fitness g "minimize" ind = -(raw_predict g ind) := by
  simp [model_fitness]

theorem getD_length_sub_one {l : List Ind} (hne : l ≠ []) :
    l.getD (l.length - 1) [] = l.getLastD [] := by
  have h : l.length - 1 < l.length := by
    have := List.length_pos.mpr hne
    omega
  rw [List.getD_eq_getElem l [] h, List.getLastD_eq_getLast?,
    List.getLast?_eq_getLast l hne, Option.getD_some, List.getLast_eq_getElem]

theorem sorted_ne_nil {g : GAState} {mode : String} {population : List Ind}
    (hne : population ≠ []) : sort_pop g mode population ≠ [] := by
  intro h
  apply hne
  have := (sort_pop_perm g mode population).length_eq
  rw [h] at this
  exact List.length_eq_zero.mp this.symm

/-- With at least one elite slot, the previous best individual survives into
the next population. -/
theorem best_mem_mating_pool {g : GAState} {mode : String} {sel : Selection}
    {dynamic : Bool} {mutation_rate : ℚ} {top : ℕ} {population : List Ind}
    {σ : ℕ → ℚ} {k : ℕ} {newpop : List Ind} {k' : ℕ}
    (htop1 : 1 ≤ top) (hne : population ≠ [])
    (h : mating_pool g mode sel dynamic mutation_rate top population σ k =
      some (newpop, k')) :
    (sort_pop g mode population).getLastD [] ∈ newpop := by
  obtain ⟨children, _, rfl⟩ := mating_pool_some_eq h
  apply List.mem_append.mpr
  right
  rw [← getD_length_sub_one (sorted_ne_nil hne)]
  simp only [elites]
  exact List.mem_map.mpr ⟨0, List.mem_range.mpr htop1, rfl⟩

/-- Elitism: the maximal fitness of the population never decreases across one
generational transition. -/
theorem mating_pool_best_fitness_mono {g : GAState} {mode : String} {sel : Selection}
    {dynamic : Bool} {mutation_rate : ℚ} {top : ℕ} {population : List Ind}
    {σ : ℕ → ℚ} {k : ℕ} {newpop : List Ind} {k' : ℕ}
    (htop1 : 1 ≤ top) (hne : population ≠ [])
    (h : mating_pool g mode sel dynamic mutation_rate top population σ k =
      some (newpop, k')) :
    model_fitness g mode ((sort_pop g mode population).getLastD []) ≤
      model_fitness g mode ((sort_pop g mode newpop).getLastD []) :=
  sorted_last_max _ (best_mem_mating_pool htop1 hne h)

theorem record_best_mono_max {g : GAState} {sel : Selection} {dynamic : Bool}
    {mutation_rate : ℚ} {top : ℕ} {population : List Ind} {σ : ℕ → ℚ} {k : ℕ}
    {newpop : List Ind} {k' : ℕ}
    (htop1 : 1 ≤ top) (hne : population ≠ [])
    (h : mating_pool g "maximize" sel dynamic mutation_rate top population σ k =
      some (newpop, k')) :
    record_best g "maximize" population ≤ record_best g "maximize" newpop := by
  unfold record_best model_predict
  apply pyRound_mono
  have := mating_pool_best_fitness_mono htop1 hne h
  rwa [model_fitness_maximize, model_fitness_maximize] at this

theorem record_best_mono_min {g : GAState} {sel : Selection} {dynamic : Bool}
    {mutation_rate : ℚ} {top : ℕ} {population : List Ind} {σ : ℕ → ℚ} {k : ℕ}
    {newpop : List Ind} {k' : ℕ}
    (htop1 : 1 ≤ top) (hne : population ≠ [])
    (h : mating_pool g "minimize" sel dynamic mutation_rate top population σ k =
      some (newpop, k')) :
    record_best g "minimize" newpop ≤ record_best g "minimize" population := by
  unfold record_best model_predict
  apply pyRound_mono
  have := mating_pool_best_fitness_mono htop1 hne h
  rw [model_fitness_minimize, model_fitness_minimize] at this
  linarith

theorem states_length {g : GAState} {mode : String} {sel : Selection}
    {dynamic : Bool} {mutation_rate : ℚ} {top : ℕ} {σ : ℕ → ℚ}
    (htop2 : top ≤ g.pop_size) :
    ∀ {n : ℕ} {population : List Ind} {k : ℕ} {p : List Ind} {k' : ℕ},
      population.length = g.pop_size →
      states g mode sel dynamic mutation_rate top σ n (population, k) = some (p, k') →
      p.length = g.pop_size := by
  intro n
  induction n with
  | zero =>
    intro population k p k' hlen h
    simp only [states, Option.some.injEq, Prod.mk.injEq] at h
    rw [← h.1]
    exact hlen
  | succ m ih =>
    intro population k p k' hlen h
    simp only [states] at h
    cases hmp : mating_pool g mode sel dynamic mutation_rate top population σ k with
    | none => simp only [hmp] at h; cases h
    | some s' =>
      obtain ⟨pop', k1⟩ := s'
      simp only [hmp] at h
      exact ih (mating_pool_length htop2 hmp) h

/-- Full characterization of a successful run loop: the history has one entry
per generation, entry `i` is the pre-breeding record of the population entering
generation `i`, and the final state is the `n`-step iterate. -/
theorem run_loop_hist (g : GAState) (mode : String) (sel : Selection)
    (dynamic : Bool) (mutation_rate : ℚ) (top : ℕ) (σ : ℕ → ℚ) :
    ∀ (n : ℕ) (population : List Ind) (k : ℕ) (st : List Ind × ℕ) (hist : List ℚ),
      run_loop g mode sel dynamic mutation_rate top σ n (population, k) =
        some (st, hist) →
      hist.length = n ∧
      states g mode sel dynamic mutation_rate top σ n (population, k) = some st ∧
      ∀ i, i < n → ∃ pi ki,
        states g mode sel dynamic mutation_rate top σ i (population, k) = some (pi, ki) ∧
        hist.getD i 0 = record_best g mode pi := by
  intro n
  induction n with
  | zero =>
    intro population k st hist h
    simp only [run_loop, Option.some.injEq, Prod.mk.injEq] at h
    refine ⟨by rw [← h.2]; rfl, by simp only [states, Option.some.injEq]; exact h.1, ?_⟩
    intro i hi
    omega
  | succ m ih =>
    intro population k st hist h
    simp only [run_loop] at h
    cases hmp : mating_pool g mode sel dynamic mutation_rate top population σ k with
    | none => simp only [hmp] at h; cases h
    | some s' =>
      simp only [hmp] at h
      cases hrl : run_loop g mode sel dynamic mutation_rate top σ m s' with
      | none => simp only [hrl] at h; cases h
      | some res =>
        obtain ⟨st', hist'⟩ := res
        simp only [hrl, Option.some.injEq, Prod.mk.injEq] at h
        obtain ⟨hst, hhist⟩ := h
        obtain ⟨s'pop, s'k⟩ := s'
        obtain ⟨hlen', hstates', hrec'⟩ := ih s'pop s'k st' hist' hrl
        subst hst
        rw [← hhist]
        refine ⟨by simp [hlen'], ?_, ?_⟩
        · simp only [states, hmp]
          exact hstates'
        · intro i hi
          cases i with
          | zero =>
            exact ⟨population, k, by simp [states], by simp⟩
          | succ j =>
            obtain ⟨pi, ki, hsi, hrec⟩ := hrec' j (by omega)
            refine ⟨pi, ki, ?_, ?_⟩
            · simp only [states, hmp]
              exact hsi
            · simpa using hrec

/-- Inversion of a successful `run`: the configuration was valid and the run
loop succeeded with the returned history, the returned individual being the
best of the sorted final population. -/
theorem run_ok_inversion {g : GAState} {mode select : String} {boltzmann : Bool}
    {generations : ℕ} {exploration : ℚ} {keep_top : ℕ} {population : List Ind}
    {σ : ℕ → ℚ} {k : ℕ} {best : Ind} {hist : List ℚ}
    (h : run g mode select boltzmann generations exploration keep_top population σ k =
      .ok (best, hist)) :
    (select = "roulette" ∨ select = "rank") ∧
    (mode = "maximize" ∨ mode = "minimize") ∧
    ∃ st, run_loop g mode (if select = "roulette" then Selection.roulette else Selection.rank)
        boltzmann exploration (if keep_top > g.pop_size then 1 else keep_top) σ generations
        (population, k) = some (st, hist) ∧
      best = (sort_pop g mode st.1).getLastD [] := by
  by_cases hsel : select = "roulette" ∨ select = "rank"
  case neg => simp only [run, if_neg hsel] at h; cases h
  case pos =>
    simp only [run, if_pos hsel] at h
    by_cases hmode : mode ≠ "maximize" ∧ mode ≠ "minimize"
    · rw [if_pos hmode] at h; cases h
    · rw [if_neg hmode] at h
      refine ⟨hsel, ?_, ?_⟩
      · rcases not_and_or.mp hmode with h1 | h1
        · exact Or.inl (not_not.mp h1)
        · exact Or.inr (not_not.mp h1)
      · cases hrl : run_loop g mode
            (if select = "roulette" then Selection.roulette else Selection.rank)
            boltzmann exploration (if keep_top > g.pop_size then 1 else keep_top) σ
            generations (population, k) with
        | none => rw [hrl] at h; cases h
        | some res =>
          obtain ⟨st, hist'⟩ := res
          rw [hrl] at h
          simp only [Except.ok.injEq, Prod.mk.injEq] at h
          exact ⟨st, by rw [← h.2], h.1.symm⟩

/-- Peeling the last step instead of the first: the `n + 1`-st population is
the mating pool of the `n`-th. -/
theorem states_step (g : GAState) (mode : String) (sel : Selection) (dynamic : Bool)
    (mutation_rate : ℚ) (top : ℕ) (σ : ℕ → ℚ) :
    ∀ (n : ℕ) (s0 : List Ind × ℕ),
      states g mode sel dynamic mutation_rate top σ (n + 1) s0 =
        match states g mode sel dynamic mutation_rate top σ n s0 with
        | none => none
        | some s => mating_pool g mode sel dynamic mutation_rate top s.1 σ s.2 := by
  intro n
  induction n with
  | zero =>
    intro s0
    obtain ⟨population, k⟩ := s0
    simp only [states]
    cases hmp : mating_pool g mode sel dynamic mutation_rate top population σ k with
    | none => simp only [hmp]
    | some s' => simp only [hmp, states]
  | succ m ih =>
    intro s0
    obtain ⟨population, k⟩ := s0
    simp only [states]
    cases hmp : mating_pool g mode sel dynamic mutation_rate top population σ k with
    | none => simp only [hmp]
    | some s' =>
      simp only [hmp]
      exact ih s'

/-! ### Totality of rank-selection runs -/

theorem breed_children_rank_total {g : GAState} {mode : String} {dynamic : Bool}
    {mutation_rate : ℚ} {sorted_pop : List Ind} {summation : ℚ} {σ : ℕ → ℚ}
    (hσ : UniformSource σ) (hne : sorted_pop ≠ [])
    (hS : summation = (sorted_pop.length : ℚ) * (sorted_pop.length + 1) / 2) :
    ∀ (n k : ℕ), ∃ children k',
      breed_children g mode .rank dynamic mutation_rate sorted_pop summation σ n k =
        some (children, k') := by
  intro n
  induction n with
  | zero => intro k; exact ⟨[], k, rfl⟩
  | succ m ih =>
    intro k
    obtain ⟨x1, r1, hs1, _, _, _⟩ := rank_select_total hne (hσ k).1 (hσ k).2 hS
    obtain ⟨x2, r2, hs2, _, _, _⟩ := rank_select_total hne (hσ (k + 1)).1 (hσ (k + 1)).2 hS
    obtain ⟨rest, k'', hrest⟩ := ih (mutation g dynamic mutation_rate (crossover x1 x2)
      (if dynamic = true then
        mutation_rate * (((g.pop_size : ℚ) - r1 + 1 + ((g.pop_size : ℚ) - r2 + 1)) / 2 / g.pop_size)
      else 0) σ (k + 2)).2
    refine ⟨(mutation g dynamic mutation_rate (crossover x1 x2)
      (if dynamic = true then
        mutation_rate * (((g.pop_size : ℚ) - r1 + 1 + ((g.pop_size : ℚ) - r2 + 1)) / 2 / g.pop_size)
      else 0) σ (k + 2)).1 :: rest, k'', ?_⟩
    simp only [breed_children, select_fn, hs1, hs2, hrest]

theorem mating_pool_rank_total {g : GAState} {mode : String} {dynamic : Bool}
    {mutation_rate : ℚ} {population : List Ind} {σ : ℕ → ℚ}
    (hσ : UniformSource σ) (hps : 1 ≤ g.pop_size) (hlen : population.length = g.pop_size) :
    ∀ (top k : ℕ), ∃ newpop k',
      mating_pool g mode .rank dynamic mutation_rate top population σ k =
        some (newpop, k') := by
  intro top k
  have hne : population ≠ [] := by
    intro hcon
    rw [hcon] at hlen
    simp at hlen
    omega
  have hsne : sort_pop g mode population ≠ [] := sorted_ne_nil hne
  have hS : summation_of g mode .rank population =
      ((sort_pop g mode population).length : ℚ) *
        ((sort_pop g mode population).length + 1) / 2 := by
    rw [summation_of_rank, (sort_pop_perm g mode population).length_eq, hlen]
  obtain ⟨children, k', hbreed⟩ :=
    @breed_children_rank_total g mode dynamic mutation_rate (sort_pop g mode population)
      (summation_of g mode .rank population) σ hσ hsne hS (g.pop_size - top) k
  exact ⟨children ++ elites (sort_pop g mode population) top, k',
    by simp only [mating_pool, hbreed]⟩

theorem run_loop_rank_total {g : GAState} {mode : String} {dynamic : Bool}
    {mutation_rate : ℚ} {top : ℕ} {σ : ℕ → ℚ}
    (hσ : UniformSource σ) (hps : 1 ≤ g.pop_size) (htop2 : top ≤ g.pop_size) :
    ∀ (n : ℕ) (population : List Ind) (k : ℕ), population.length = g.pop_size →
      ∃ st hist, run_loop g mode .rank dynamic mutation_rate top σ n (population, k) =
        some (st, hist) := by
  intro n
  induction n with
  | zero => intro population k _; exact ⟨(population, k), [], rfl⟩
  | succ m ih =>
    intro population k hlen
    obtain ⟨newpop, k1, hmp⟩ :=
      @mating_pool_rank_total g mode dynamic mutation_rate population σ hσ hps hlen top k
    obtain ⟨st, hist, hrl⟩ := ih newpop k1 (mating_pool_length htop2 hmp)
    exact ⟨st, record_best g mode population :: hist,
      by simp only [run_loop, hmp, hrl]⟩

/-! ### Claim C2 -/

/-- C2 amended (the claim's monotone direction depends on the objective): for
every successful run with `keepTop ≥ 1` on a population of the configured size,
the best fitness never decreases thanks to elitism; the values recorded in the
convergence history are raw (sign-unadjusted) predictions, so the history is
non-decreasing for a maximize run and non-increasing for a minimize run. -/
theorem claim_C2_amended {g : GAState} {mode select : String} {boltzmann : Bool}
    {generations : ℕ} {exploration : ℚ} {keep_top : ℕ} {population : List Ind}
    {σ : ℕ → ℚ} {k : ℕ} {best : Ind} {hist : List ℚ}
    (hkt : 1 ≤ keep_top) (hps : 1 ≤ g.pop_size) (hlen : population.length = g.pop_size)
    (hrun : run g mode select boltzmann generations exploration keep_top population σ k =
      .ok (best, hist)) :
    (mode = "maximize" → ∀ i, i + 1 < hist.length → hist.getD i 0 ≤ hist.getD (i + 1) 0) ∧
    (mode = "minimize" → ∀ i, i + 1 < hist.length → hist.getD (i + 1) 0 ≤ hist.getD i 0) := by
  obtain ⟨hsel, hmode, st, hrl, hbest⟩ := run_ok_inversion hrun
  have htop1 : 1 ≤ (if keep_top > g.pop_size then 1 else keep_top) := by
    split <;> omega
  have htop2 : (if keep_top > g.pop_size then 1 else keep_top) ≤ g.pop_size := by
    split <;> omega
  obtain ⟨hlenh, hstf, hrec⟩ := run_loop_hist g mode
    (if select = "roulette" then Selection.roulette else Selection.rank) boltzmann
    exploration (if keep_top > g.pop_size then 1 else keep_top) σ generations
    population k st hist hrl
  have key : ∀ i, i + 1 < hist.length → ∃ pi pi1,
      hist.getD i 0 = record_best g mode pi ∧
      hist.getD (i + 1) 0 = record_best g mode pi1 ∧
      pi ≠ [] ∧
      ∃ ki ki1, mating_pool g mode
        (if select = "roulette" then Selection.roulette else Selection.rank) boltzmann
        exploration (if keep_top > g.pop_size then 1 else keep_top) pi σ ki =
          some (pi1, ki1) := by
    intro i hi
    obtain ⟨pi, ki, hsi, hreci⟩ := hrec i (by omega)
    obtain ⟨pi1, ki1, hsi1, hreci1⟩ := hrec (i + 1) (by omega)
    rw [states_step, hsi] at hsi1
    have hpl : pi.length = g.pop_size := states_length htop2 hlen hsi
    have hne : pi ≠ [] := by
      intro hcon
      rw [hcon] at hpl
      simp at hpl
      omega
    exact ⟨pi, pi1, hreci, hreci1, hne, ki, ki1, hsi1⟩
  constructor
  · intro hmax i hi
    obtain ⟨pi, pi1, hreci, hreci1, hne, ki, ki1, hmp⟩ := key i hi
    rw [hreci, hreci1]
    subst hmax
    exact record_best_mono_max htop1 hne hmp
  · intro hmin i hi
    obtain ⟨pi, pi1, hreci, hreci1, hne, ki, ki1, hmp⟩ := key i hi
    rw [hreci, hreci1]
    subst hmin
    exact record_best_mono_min htop1 hne hmp

/-- A two-individual fixture for minimize runs: evaluator `ind['a']`,
bounds `(0, 10)`, population size 2. -/
def gmin : GAState :=
  { model := .fn (fun l => l.headD 0), parameters := ["a"], boundaries := [(0, 10)],
    X_scale := none, y_scale := none, pop_size := 2, precision := 5 }

/-- A concrete raw-draw stream: every draw is `0`. -/
def σ0 : ℕ → ℚ := fun _ => 0

/-- Counterexample to C2 as stated: a minimize run with `keepTop = 1` whose
recorded history `[4, 5/2]` strictly decreases — the history records raw
predictions, which improve downward under minimization. -/
theorem claim_C2_counterexample :
    run gmin "minimize" "rank" false 2 (1 / 2) 1 [[5], [4]] σ0 0 =
      .ok ([2], [4, 5 / 2]) ∧ ¬((4 : ℚ) ≤ 5 / 2) := by
  constructor
  · norm_num [run, run_loop, record_best, mating_pool, breed_children, select_fn,
      rank_select, rank_select_go, sort_pop, List.insertionSort, List.orderedInsert,
      summation_of_rank, elites, crossover, mutation, mutation_go, uniform, clamp,
      model_fitness, model_predict, raw_predict, pyRound, roundHalfEven, ratFloor,
      gmin, σ0, show ¬("minimize" : String) = "maximize" from by decide,
      show ¬("rank" : String) = "roulette" from by decide]
  · norm_num

/-- Witness for the amended C2: a concrete one-generation maximize run. -/
theorem claim_C2_amended_witness :
    ("maximize" = "maximize" → ∀ i, i + 1 < ([(5 : ℚ)] : List ℚ).length →
      ([(5 : ℚ)] : List ℚ).getD i 0 ≤ ([(5 : ℚ)] : List ℚ).getD (i + 1) 0) ∧
    ("maximize" = "minimize" → ∀ i, i + 1 < ([(5 : ℚ)] : List ℚ).length →
      ([(5 : ℚ)] : List ℚ).getD (i + 1) 0 ≤ ([(5 : ℚ)] : List ℚ).getD i 0) :=
  claim_C2_amended (le_refl 1) (by norm_num [gW]) (by norm_num [gW])
    (show run gW "maximize" "rank" true 1 (1 / 4) 1 [[5]] σW 0 = .ok ([5], [5]) by
      norm_num [run, run_loop, record_best, mating_pool, breed_children, select_fn,
        rank_select, rank_select_go, sort_pop, List.insertionSort, List.orderedInsert,
        summation_of_rank, elites, crossover, mutation, mutation_go, uniform, clamp,
        model_fitness, model_predict, raw_predict, pyRound, roundHalfEven, ratFloor,
        gW, σW, show ¬("maximize" : String) = "minimize" from by decide,
        show ¬("rank" : String) = "roulette" from by decide])

/-! ### Claim C6 -/

/-- Complete description of a rank-selection run: it always succeeds, performs
exactly `generations` transitions, returns the best individual of the sorted
final population, and its history has length `generations` with entry `i` the
pre-breeding record of the population entering generation `i`. -/
theorem run_rank_spec {g : GAState} {mode : String} {boltzmann : Bool}
    {generations : ℕ} {exploration : ℚ} {keep_top : ℕ} {population : List Ind}
    {σ : ℕ → ℚ} {k : ℕ}
    (hσ : UniformSource σ) (hmode : mode = "maximize" ∨ mode = "minimize")
    (hps : 1 ≤ g.pop_size) (hlen : population.length = g.pop_size) :
    ∃ best hist,
      run g mode "rank" boltzmann generations exploration keep_top population σ k =
        .ok (best, hist) ∧
      hist.length = generations ∧
      (∀ i, i < generations → ∃ pi ki,
        states g mode .rank boltzmann exploration
          (if keep_top > g.pop_size then 1 else keep_top) σ i (population, k) =
            some (pi, ki) ∧
        hist.getD i 0 = record_best g mode pi) ∧
      ∃ pf kf,
        states g mode .rank boltzmann exploration
          (if keep_top > g.pop_size then 1 else keep_top) σ generations (population, k) =
          some (pf, kf) ∧
        best = (sort_pop g mode pf).getLastD [] := by
  have htop2 : (if keep_top > g.pop_size then 1 else keep_top) ≤ g.pop_size := by
    split <;> omega
  obtain ⟨st, hist, hrl⟩ := @run_loop_rank_total g mode boltzmann exploration
    (if keep_top > g.pop_size then 1 else keep_top) σ hσ hps htop2 generations
    population k hlen
  obtain ⟨hlh, hstf, hrec⟩ := run_loop_hist g mode .rank boltzmann exploration
    (if keep_top > g.pop_size then 1 else keep_top) σ generations population k st hist hrl
  obtain ⟨pf, kf⟩ := st
  refine ⟨(sort_pop g mode pf).getLastD [], hist, ?_, hlh, hrec, pf, kf, hstf, rfl⟩
  have hmodecond : ¬(mode ≠ "maximize" ∧ mode ≠ "minimize") := by
    rcases hmode with h | h <;> simp [h]
  simp only [run, or_true, if_true,
    show (if ("rank" : String) = "roulette" then Selection.roulette else Selection.rank) =
      Selection.rank from if_neg (by decide),
    if_neg hmodecond, hrl]

/-- C6 amended (restricted to selections that cannot die mid-run): with rank
selection — the default — a validly configured run executes exactly
`generations` generational steps and returns the highest-fitness individual of
the final population together with a history of length `generations` whose
entry `i` is the rounded raw score of the best individual of the population
entering generation `i`, recorded before that generation's breeding.  (A
roulette run can instead abort mid-generation with a division by zero when all
fitness values are equal and non-positive; see the counterexample.) -/
theorem claim_C6_amended {g : GAState} {mode : String} {boltzmann : Bool}
    {generations : ℕ} {exploration : ℚ} {keep_top : ℕ} {population : List Ind}
    {σ : ℕ → ℚ} {k : ℕ}
    (hσ : UniformSource σ) (hmode : mode = "maximize" ∨ mode = "minimize")
    (hps : 1 ≤ g.pop_size) (hlen : population.length = g.pop_size) :
    ∃ best hist,
      run g mode "rank" boltzmann generations exploration keep_top population σ k =
        .ok (best, hist) ∧
      hist.length = generations ∧
      (∀ i, i < generations → ∃ pi ki,
        states g mode .rank boltzmann exploration
          (if keep_top > g.pop_size then 1 else keep_top) σ i (population, k) =
            some (pi, ki) ∧
        hist.getD i 0 = record_best g mode pi) ∧
      ∃ pf kf,
        states g mode .rank boltzmann exploration
          (if keep_top > g.pop_size then 1 else keep_top) σ generations (population, k) =
          some (pf, kf) ∧
        best = (sort_pop g mode pf).getLastD [] :=
  run_rank_spec hσ hmode hps hlen

/-- The constant-zero evaluator with population size 2. -/
def gzero2 : GAState :=
  { model := .fn (fun _ => 0), parameters := ["a"], boundaries := [(0, 10)],
    X_scale := none, y_scale := none, pop_size := 2, precision := 5 }

/-- Counterexample to C6 as stated: a validly configured roulette run (valid
objective and selection names) on the constant-zero evaluator dies inside the
first generation — every fitness is `0`, so the shifted weight normalizer is
`0` and the first weight is a division by zero (`ZeroDivisionError` in
CPython).  The run returns an error, not a best individual with a history of
length `generations = 1`. -/
theorem claim_C6_counterexample :
    run gzero2 "maximize" "roulette" true 1 (1 / 4) 1 [[0], [0]] σW 0 =
      .error .selectionFailure := by
  norm_num [run, run_loop, record_best, mating_pool, breed_children, select_fn,
    roulette_select, roulette_offset, sort_pop, List.insertionSort, List.orderedInsert,
    summation_of, elites, model_fitness, model_predict, raw_predict, pyRound,
    roundHalfEven, ratFloor, gzero2, σW,
    show ¬("maximize" : String) = "minimize" from by decide,
    show ("roulette" : String) = "roulette" from rfl,
    show (([[0], [0]] : List Ind) = []) = False from eq_false (by simp)]

/-- Witness for the amended C6: the fixture optimizer, one generation. -/
theorem claim_C6_amended_witness :
    ∃ best hist,
      run gW "maximize" "rank" true 1 (1 / 4) 1 [[5]] σW 0 = .ok (best, hist) ∧
      hist.length = 1 ∧
      (∀ i, i < 1 → ∃ pi ki,
        states gW "maximize" .rank true (1 / 4)
          (if 1 > gW.pop_size then 1 else 1) σW i ([[5]], 0) = some (pi, ki) ∧
        hist.getD i 0 = record_best gW "maximize" pi) ∧
      ∃ pf kf,
        states gW "maximize" .rank true (1 / 4)
          (if 1 > gW.pop_size then 1 else 1) σW 1 ([[5]], 0) = some (pf, kf) ∧
        best = (sort_pop gW "maximize" pf).getLastD [] :=
  claim_C6_amended σW_uniform (Or.inl rfl) (by norm_num [gW]) (by norm_num [gW])

/-! ### Claim C8 -/

/-- C8 (confirmed): `run` validates its configuration before any generation
executes.  An unrecognized selection name is a `ConfigurationError`
(`ValueError` in the source); with a recognized selection, an objective other
than maximize/minimize is a `ConfigurationError`; in both cases the error is
returned instead of any run result, so no partial generation output exists.
`keep_top > pop_size` is not an error: the run behaves exactly as with
`keep_top = 1`, and (with the default rank selection) completes normally. -/
theorem claim_C8 (g : GAState) (mode select : String) (boltzmann : Bool)
    (generations : ℕ) (exploration : ℚ) (keep_top : ℕ) (population : List Ind)
    (σ : ℕ → ℚ) (k : ℕ) :
    (¬(select = "roulette" ∨ select = "rank") →
      run g mode select boltzmann generations exploration keep_top population σ k =
        .error .configurationError) ∧
    ((select = "roulette" ∨ select = "rank") → mode ≠ "maximize" → mode ≠ "minimize" →
      run g mode select boltzmann generations exploration keep_top population σ k =
        .error .configurationError) ∧
    (keep_top > g.pop_size →
      run g mode select boltzmann generations exploration keep_top population σ k =
        run g mode select boltzmann generations exploration 1 population σ k) ∧
    (keep_top > g.pop_size → UniformSource σ → (mode = "maximize" ∨ mode = "minimize") →
      1 ≤ g.pop_size → population.length = g.pop_size →
      ∃ best hist,
        run g mode "rank" boltzmann generations exploration keep_top population σ k =
          .ok (best, hist)) := by
  refine ⟨?_, ?_, ?_, ?_⟩
  · intro hsel
    simp only [run, if_neg hsel]
  · intro hsel hmax hmin
    simp only [run, if_pos hsel, if_pos (And.intro hmax hmin)]
  · intro hkt
    have h1 : (if 1 > g.pop_size then 1 else 1) = (1 : ℕ) := by split <;> rfl
    simp only [run, if_pos hkt, h1]
  · intro hkt hσ hmode hps hlen
    obtain ⟨best, hist, hrun, _⟩ := run_rank_spec hσ hmode hps hlen
    exact ⟨best, hist, hrun⟩

/-- Witness for C8 at a concrete configuration of the fixture optimizer with
an unrecognized selection name and `keep_top = 5 > pop_size = 1`. -/
theorem claim_C8_witness :
    (¬(("sel" : String) = "roulette" ∨ ("sel" : String) = "rank") →
      run gW "maximize" "sel" true 1 (1 / 4) 5 [[5]] σW 0 =
        .error .configurationError) ∧
    ((("sel" : String) = "roulette" ∨ ("sel" : String) = "rank") →
      ("maximize" : String) ≠ "maximize" → ("maximize" : String) ≠ "minimize" →
      run gW "maximize" "sel" true 1 (1 / 4) 5 [[5]] σW 0 =
        .error .configurationError) ∧
    (5 > gW.pop_size →
      run gW "maximize" "sel" true 1 (1 / 4) 5 [[5]] σW 0 =
        run gW "maximize" "sel" true 1 (1 / 4) 1 [[5]] σW 0) ∧
    (5 > gW.pop_size → UniformSource σW →
      (("maximize" : String) = "maximize" ∨ ("maximize" : String) = "minimize") →
      1 ≤ gW.pop_size → ([[5]] : List Ind).length = gW.pop_size →
      ∃ best hist,
        run gW "maximize" "rank" true 1 (1 / 4) 5 [[5]] σW 0 = .ok (best, hist)) :=
  claim_C8 gW "maximize" "sel" true 1 (1 / 4) 5 [[5]] σW 0

/-! ### Claim C5: congruence of the search under a shared fitness function -/

/-- The optimizer whose plain-function evaluator is the negation of `f`, all
other construction fields unchanged. -/
def neg_fn (g : GAState) (f : Ind → ℚ) : GAState :=
  { g with model := .fn (fun v => -(f v)) }

theorem raw_predict_neg_fn {g : GAState} {f : Ind → ℚ} (hg : g.model = .fn f)
    (ind : Ind) : raw_predict (neg_fn g f) ind = -(raw_predict g ind) := by
  unfold raw_predict neg_fn
  rw [hg]

theorem fitness_flip {g : GAState} {f : Ind → ℚ} (hg : g.model = .fn f) (ind : Ind) :
    model_fitness g "minimize" ind = model_fitness (neg_fn g f) "maximize" ind := by
  rw [model_fitness_minimize, model_fitness_maximize, raw_predict_neg_fn hg]

theorem sort_pop_congr {g1 g2 : GAState} {m1 m2 : String}
    (hfit : ∀ ind, model_fitness g1 m1 ind = model_fitness g2 m2 ind)
    (population : List Ind) : sort_pop g1 m1 population = sort_pop g2 m2 population := by
  unfold sort_pop
  congr 1
  funext a b
  rw [hfit, hfit]

theorem roulette_go_congr {g1 g2 : GAState} {m1 m2 : String}
    (hfit : ∀ ind, model_fitness g1 m1 ind = model_fitness g2 m2 ind)
    (offset S u : ℚ) :
    ∀ (l : List Ind) (c : ℚ) (i : ℕ),
      roulette_go g1 m1 offset S u l c i = roulette_go g2 m2 offset S u l c i := by
  intro l
  induction l with
  | nil => intro c i; rfl
  | cons x xs ih => intro c i; simp only [roulette_go, hfit, ih]

theorem roulette_select_congr {g1 g2 : GAState} {m1 m2 : String}
    (hfit : ∀ ind, model_fitness g1 m1 ind = model_fitness g2 m2 ind)
    (sorted_pop : List Ind) (S u : ℚ) :
    roulette_select g1 m1 sorted_pop S u = roulette_select g2 m2 sorted_pop S u := by
  unfold roulette_select roulette_offset
  simp only [hfit, roulette_go_congr hfit]

theorem select_fn_congr {g1 g2 : GAState} {m1 m2 : String}
    (hfit : ∀ ind, model_fitness g1 m1 ind = model_fitness g2 m2 ind)
    (sel : Selection) (sorted_pop : List Ind) (S u : ℚ) :
    select_fn g1 m1 sel sorted_pop S u = select_fn g2 m2 sel sorted_pop S u := by
  cases sel with
  | rank => rfl
  | roulette => exact roulette_select_congr hfit sorted_pop S u

theorem summation_of_congr {g1 g2 : GAState} {m1 m2 : String}
    (hfit : ∀ ind, model_fitness g1 m1 ind = model_fitness g2 m2 ind)
    (hpop : g1.pop_size = g2.pop_size) (sel : Selection) (population : List Ind) :
    summation_of g1 m1 sel population = summation_of g2 m2 sel population := by
  cases sel with
  | roulette =>
    simp only [summation_of]
    congr 1
    exact List.map_congr_left (fun ind _ => hfit ind)
  | rank => simp only [summation_of, hpop]

theorem mutation_congr {g1 g2 : GAState} (hbound : g1.boundaries = g2.boundaries)
    (dynamic : Bool) (mutation_rate : ℚ) (ind : Ind) (mutation_prob : ℚ)
    (σ : ℕ → ℚ) (k : ℕ) :
    mutation g1 dynamic mutation_rate ind mutation_prob σ k =
      mutation g2 dynamic mutation_rate ind mutation_prob σ k := by
  unfold mutation
  rw [hbound]

theorem breed_children_congr {g1 g2 : GAState} {m1 m2 : String}
    (hfit : ∀ ind, model_fitness g1 m1 ind = model_fitness g2 m2 ind)
    (hbound : g1.boundaries = g2.boundaries) (hpop : g1.pop_size = g2.pop_size)
    (sel : Selection) (dynamic : Bool) (mutation_rate : ℚ) (sorted_pop : List Ind)
    (S : ℚ) (σ : ℕ → ℚ) :
    ∀ (n k : ℕ),
      breed_children g1 m1 sel dynamic mutation_rate sorted_pop S σ n k =
        breed_children g2 m2 sel dynamic mutation_rate sorted_pop S σ n k := by
  intro n
  induction n with
  | zero => intro k; rfl
  | succ m ih =>
    intro k
    simp only [breed_children, select_fn_congr hfit, hpop,
      mutation_congr hbound, ih]

theorem mating_pool_congr {g1 g2 : GAState} {m1 m2 : String}
    (hfit : ∀ ind, model_fitness g1 m1 ind = model_fitness g2 m2 ind)
    (hbound : g1.boundaries = g2.boundaries) (hpop : g1.pop_size = g2.pop_size)
    (sel : Selection) (dynamic : Bool) (mutation_rate : ℚ) (top : ℕ)
    (population : List Ind) (σ : ℕ → ℚ) (k : ℕ) :
    mating_pool g1 m1 sel dynamic mutation_rate top population σ k =
      mating_pool g2 m2 sel dynamic mutation_rate top population σ k := by
  simp only [mating_pool]
  rw [sort_pop_congr hfit, summation_of_congr hfit hpop,
    breed_children_congr hfit hbound hpop, hpop]

theorem states_congr {g1 g2 : GAState} {m1 m2 : String}
    (hfit : ∀ ind, model_fitness g1 m1 ind = model_fitness g2 m2 ind)
    (hbound : g1.boundaries = g2.boundaries) (hpop : g1.pop_size = g2.pop_size)
    (sel : Selection) (dynamic : Bool) (mutation_rate : ℚ) (top : ℕ) (σ : ℕ → ℚ) :
    ∀ (n : ℕ) (s0 : List Ind × ℕ),
      states g1 m1 sel dynamic mutation_rate top σ n s0 =
        states g2 m2 sel dynamic mutation_rate top σ n s0 := by
  intro n
  induction n with
  | zero => intro s0; rfl
  | succ m ih =>
    intro s0
    obtain ⟨population, k⟩ := s0
    simp only [states, mating_pool_congr hfit hbound hpop]
    cases mating_pool g2 m2 sel dynamic mutation_rate top population σ k with
    | none => rfl
    | some s' => exact ih s'

theorem record_best_neg {g1 g2 : GAState} {m1 m2 : String}
    (hfit : ∀ ind, model_fitness g1 m1 ind = model_fitness g2 m2 ind)
    (hraw : ∀ ind, model_predict g2 ind = -(model_predict g1 ind))
    (hprec : g1.precision = g2.precision) (population : List Ind) :
    record_best g2 m2 population = -(record_best g1 m1 population) := by
  unfold record_best
  rw [← sort_pop_congr hfit, hraw, pyRound_neg, hprec]

theorem run_loop_neg {g1 g2 : GAState} {m1 m2 : String}
    (hfit : ∀ ind, model_fitness g1 m1 ind = model_fitness g2 m2 ind)
    (hbound : g1.boundaries = g2.boundaries) (hpop : g1.pop_size = g2.pop_size)
    (hraw : ∀ ind, model_predict g2 ind = -(model_predict g1 ind))
    (hprec : g1.precision = g2.precision)
    (sel : Selection) (dynamic : Bool) (mutation_rate : ℚ) (top : ℕ) (σ : ℕ → ℚ) :
    ∀ (n : ℕ) (s0 : List Ind × ℕ),
      run_loop g2 m2 sel dynamic mutation_rate top σ n s0 =
        Option.map (fun r => (r.1, r.2.map (fun x => -x)))
          (run_loop g1 m1 sel dynamic mutation_rate top σ n s0) := by
  intro n
  induction n with
  | zero => intro s0; rfl
  | succ m ih =>
    intro s0
    obtain ⟨population, k⟩ := s0
    simp only [run_loop, ← mating_pool_congr hfit hbound hpop]
    cases mating_pool g1 m1 sel dynamic mutation_rate top population σ k with
    | none => rfl
    | some s' =>
      simp only [ih s']
      cases run_loop g1 m1 sel dynamic mutation_rate top σ m s' with
      | none => rfl
      | some res =>
        obtain ⟨st, hist⟩ := res
        simp only [Option.map_some', List.map_cons, record_best_neg hfit hraw hprec]

/-- C5 amended: with identical draws, a minimize run on `f` and a maximize run
on `-f` visit exactly the same populations and return the same best
individual; the convergence histories are not identical but pointwise
negations of each other (the history records raw predictions, and the two
evaluators' raw predictions have opposite signs). -/
theorem claim_C5_amended {g : GAState} {f : Ind → ℚ} (hg : g.model = .fn f)
    (select : String) (boltzmann : Bool) (generations : ℕ) (exploration : ℚ)
    (keep_top : ℕ) (population : List Ind) (σ : ℕ → ℚ) (k : ℕ) :
    (∀ (sel : Selection) (dynamic : Bool) (mutation_rate : ℚ) (top n : ℕ)
       (s0 : List Ind × ℕ),
       states g "minimize" sel dynamic mutation_rate top σ n s0 =
         states (neg_fn g f) "maximize" sel dynamic mutation_rate top σ n s0) ∧
    run (neg_fn g f) "maximize" select boltzmann generations exploration keep_top
        population σ k =
      Except.map (fun r => (r.1, r.2.map (fun x => -x)))
        (run g "minimize" select boltzmann generations exploration keep_top
          population σ k) := by
  have hfit := fitness_flip hg
  have hbound : g.boundaries = (neg_fn g f).boundaries := rfl
  have hpop : g.pop_size = (neg_fn g f).pop_size := rfl
  have hprec : g.precision = (neg_fn g f).precision := rfl
  have hraw : ∀ ind, model_predict (neg_fn g f) ind = -(model_predict g ind) := by
    intro ind
    unfold model_predict
    exact raw_predict_neg_fn hg ind
  refine ⟨fun sel dynamic mutation_rate top n s0 =>
    states_congr hfit hbound hpop sel dynamic mutation_rate top σ n s0, ?_⟩
  by_cases hsel : select = "roulette" ∨ select = "rank"
  case neg =>
    simp only [run, if_neg hsel, Except.map]
  case pos =>
    simp only [run, if_pos hsel,
      if_neg (show ¬(("maximize" : String) ≠ "maximize" ∧
        ("maximize" : String) ≠ "minimize") from by simp),
      if_neg (show ¬(("minimize" : String) ≠ "maximize" ∧
        ("minimize" : String) ≠ "minimize") from by simp)]
    rw [show (neg_fn g f).pop_size = g.pop_size from rfl]
    rw [run_loop_neg hfit hbound hpop hraw hprec]
    cases run_loop g "minimize"
        (if select = "roulette" then Selection.roulette else Selection.rank) boltzmann
        exploration (if keep_top > g.pop_size then 1 else keep_top) σ generations
        (population, k) with
    | none => rfl
    | some res =>
      obtain ⟨st, hist⟩ := res
      obtain ⟨popF, kF⟩ := st
      simp only [Option.map_some', Except.map]
      rw [← sort_pop_congr hfit]

/-- The fixture optimizer with the negated evaluator `-ind['a']`. -/
def gWneg : GAState :=
  { model := .fn (fun l => -(l.headD 0)), parameters := ["a"], boundaries := [(0, 10)],
    X_scale := none, y_scale := none, pop_size := 1, precision := 5 }

/-- Counterexample to C5 as stated: one generation on the singleton population
`[{a: 5}]`.  The minimize run on `f` and the maximize run on `-f` return the
same best individual, but record histories `[5]` and `[-5]` — negations, not
identical. -/
theorem claim_C5_counterexample :
    run gW "minimize" "rank" true 1 (1 / 4) 1 [[5]] σW 0 = .ok ([5], [5]) ∧
    run gWneg "maximize" "rank" true 1 (1 / 4) 1 [[5]] σW 0 = .ok ([5], [-5]) ∧
    ([(5 : ℚ)] : List ℚ) ≠ [(-5 : ℚ)] := by
  refine ⟨?_, ?_, by norm_num⟩
  · norm_num [run, run_loop, record_best, mating_pool, breed_children, select_fn,
      rank_select, rank_select_go, sort_pop, List.insertionSort, List.orderedInsert,
      summation_of_rank, elites, crossover, mutation, mutation_go, uniform, clamp,
      model_fitness, model_predict, raw_predict, pyRound, roundHalfEven, ratFloor,
      gW, σW, show ¬("minimize" : String) = "maximize" from by decide,
      show ¬("rank" : String) = "roulette" from by decide]
  · norm_num [run, run_loop, record_best, mating_pool, breed_children, select_fn,
      rank_select, rank_select_go, sort_pop, List.insertionSort, List.orderedInsert,
      summation_of_rank, elites, crossover, mutation, mutation_go, uniform, clamp,
      model_fitness, model_predict, raw_predict, pyRound, roundHalfEven, ratFloor,
      gWneg, σW, show ¬("maximize" : String) = "minimize" from by decide,
      show ¬("rank" : String) = "roulette" from by decide]

/-- Witness for the amended C5 at the fixture optimizer. -/
theorem claim_C5_amended_witness :
    (∀ (sel : Selection) (dynamic : Bool) (mutation_rate : ℚ) (top n : ℕ)
       (s0 : List Ind × ℕ),
       states gW "minimize" sel dynamic mutation_rate top σW n s0 =
         states (neg_fn gW (fun l => l.headD 0)) "maximize" sel dynamic mutation_rate
           top σW n s0) ∧
    run (neg_fn gW (fun l => l.headD 0)) "maximize" "rank" true 1 (1 / 4) 1 [[5]] σW 0 =
      Except.map (fun r => (r.1, r.2.map (fun x => -x)))
        (run gW "minimize" "rank" true 1 (1 / 4) 1 [[5]] σW 0) :=
  claim_C5_amended rfl "rank" true 1 (1 / 4) 1 [[5]] σW 0

/-! ### Claim C4 -/

/-- Scoring as the spec describes it (§4.1, §7): clearly named spec-side
definition, to be compared with the source-side `raw_predict`.  The spec says
scoring "fails with `ConfigurationError` if exactly one of the two transforms
is supplied (both-or-neither required)"; with both it is the inverse label
transform of the prediction on the feature-transformed row, with neither the
prediction on the raw row. -/
def score_spec (g : GAState) (ind : Ind) : Except GAErr ℚ :=
  match g.model with
  | .fn f => .ok (f ind)
  | .predictor predict =>
    match g.X_scale, g.y_scale with
    | some xs, some ys => .ok ((ys (predict (xs ind))).headD 0)
    | none, none => .ok ((predict ind).headD 0)
    | _, _ => .error .configurationError

/-- A model-object fixture with a feature scaler but no label scaler. -/
def gone : GAState :=
  { model := .predictor (fun v => [v.sum]), parameters := ["a", "b"],
    boundaries := [(0, 10), (0, 10)], X_scale := some (fun v => v.map (· + 1)),
    y_scale := none, pop_size := 2, precision := 5 }

/-- Counterexample to C4 as stated: with exactly one transform supplied (a
feature scaler, no label scaler) the source does not fail at all — the branch
`if self.X_scale and self.y_scale:` is false, so scoring silently ignores the
scaler and predicts on the raw value vector (`5 = 2 + 3`, not the transformed
`7 = 3 + 4`), while the spec-side definition demands a `ConfigurationError`. -/
theorem claim_C4_counterexample :
    model_fitness gone "maximize" [2, 3] = 5 ∧
    model_predict gone [2, 3] = 5 ∧
    score_spec gone [2, 3] = .error .configurationError := by
  refine ⟨?_, ?_, rfl⟩
  · norm_num [model_fitness, raw_predict, gone,
      show ¬("maximize" : String) = "minimize" from by decide]
  · norm_num [model_predict, raw_predict, gone]

/-- C4 amended: scoring never fails on the scaler pairing.  When exactly one
of the two transforms is supplied it is silently ignored and the score is the
model's prediction on the raw value vector; when both are supplied the score
is the inverse label transform of the model's prediction on the
feature-transformed value vector (the claim's second half, which holds); and
the fitness used internally is that same score, negated exactly for the
minimize objective. -/
theorem claim_C4_amended (g : GAState) (mode : String) (ind : Ind) :
    (∀ p, g.model = .predictor p →
      ((∃ xs, g.X_scale = some xs ∧ g.y_scale = none) ∨
       (g.X_scale = none ∧ ∃ ys, g.y_scale = some ys)) →
      model_predict g ind = (p ind).headD 0) ∧
    (∀ p xs ys, g.model = .predictor p → g.X_scale = some xs → g.y_scale = some ys →
      model_predict g ind = (ys (p (xs ind))).headD 0) ∧
    (model_fitness g mode ind =
      if mode == "minimize" then -(model_predict g ind) else model_predict g ind) := by
  refine ⟨?_, ?_, rfl⟩
  · intro p hm hone
    unfold model_predict raw_predict
    rw [hm]
    rcases hone with ⟨xs, hx, hy⟩ | ⟨hx, ys, hy⟩
    · rw [hx, hy]
    · rw [hx, hy]
  · intro p xs ys hm hx hy
    unfold model_predict raw_predict
    rw [hm, hx, hy]

/-- Witness for the amended C4 at the one-scaler fixture and at a two-scaler
variant of it. -/
theorem claim_C4_amended_witness :
    ((∀ p, gone.model = .predictor p →
      ((∃ xs, gone.X_scale = some xs ∧ gone.y_scale = none) ∨
       (gone.X_scale = none ∧ ∃ ys, gone.y_scale = some ys)) →
      model_predict gone [2, 3] = (p [2, 3]).headD 0) ∧
    (∀ p xs ys, gone.model = .predictor p → gone.X_scale = some xs →
      gone.y_scale = some ys →
      model_predict gone [2, 3] = (ys (p (xs [2, 3]))).headD 0) ∧
    (model_fitness gone "maximize" [2, 3] =
      if "maximize" == "minimize" then -(model_predict gone [2, 3])
      else model_predict gone [2, 3])) :=
  claim_C4_amended gone "maximize" [2, 3]

/-! ### Claim C7 -/

theorem mutation_go_getD (σ : ℕ → ℚ) (rate : ℚ) :
    ∀ (ind : List ℚ) (bs : List (ℚ × ℚ)) (k i : ℕ), i < ind.length → i < bs.length →
      (mutation_go σ rate ind bs k).1.getD i 0 =
        clamp (ind.getD i 0 +
            uniform (-(rate * ind.getD i 0)) (rate * ind.getD i 0) (σ (k + i)))
          (bs.getD i (0, 0)).1 (bs.getD i (0, 0)).2 := by
  intro ind
  induction ind with
  | nil => intro bs k i hi _; simp at hi
  | cons v vs ih =>
    intro bs k i hi hib
    cases bs with
    | nil => simp at hib
    | cons b bs' =>
      obtain ⟨lo, hi'⟩ := b
      cases i with
      | zero => simp [mutation_go]
      | succ j =>
        simp only [mutation_go, List.getD_cons_succ]
        have hidx : k + 1 + j = k + (j + 1) := by omega
        have := ih bs' (k + 1) j (by simpa using hi) (by simpa using hib)
        rw [hidx] at this
        exact this

/-- C7 (confirmed): in adaptive (dynamic) mode, (i) the mutation probability
passed into a bred child's mutation is
`mutation_rate * ((invRank r1 + invRank r2) / 2 / pop_size)` with
`invRank r = pop_size - r + 1`, for the 1-based ranks `r1, r2` the two
selections returned; (ii) mutation perturbs parameter `i` by a draw from the
symmetric interval of half-width `prob * value` (numpy's
`uniform(-bound, bound)`) and then clamps to that parameter's bounds; and
(iii) a parameter whose current value is `0` (with bounds containing `0`,
always true for in-bound individuals) is left unchanged. -/
theorem claim_C7 (g : GAState) (mode : String) (sel : Selection) (mutation_rate : ℚ)
    (sorted_pop : List Ind) (S : ℚ) (σ : ℕ → ℚ) :
    (∀ (n k : ℕ) (x1 x2 : Ind) (r1 r2 : ℕ),
      select_fn g mode sel sorted_pop S (σ k) = some (x1, r1) →
      select_fn g mode sel sorted_pop S (σ (k + 1)) = some (x2, r2) →
      breed_children g mode sel true mutation_rate sorted_pop S σ (n + 1) k =
        match breed_children g mode sel true mutation_rate sorted_pop S σ n
            (mutation g true mutation_rate (crossover x1 x2)
              (mutation_rate *
                ((((g.pop_size : ℚ) - r1 + 1) + ((g.pop_size : ℚ) - r2 + 1)) / 2 /
                  g.pop_size)) σ (k + 2)).2 with
        | none => none
        | some (rest, k'') =>
          some ((mutation g true mutation_rate (crossover x1 x2)
            (mutation_rate *
              ((((g.pop_size : ℚ) - r1 + 1) + ((g.pop_size : ℚ) - r2 + 1)) / 2 /
                g.pop_size)) σ (k + 2)).1 :: rest, k'')) ∧
    (∀ (rate prob : ℚ) (ind : Ind) (k i : ℕ), i < ind.length → i < g.boundaries.length →
      (mutation g true rate ind prob σ k).1.getD i 0 =
        clamp (ind.getD i 0 +
            uniform (-(prob * ind.getD i 0)) (prob * ind.getD i 0) (σ (k + i)))
          (g.boundaries.getD i (0, 0)).1 (g.boundaries.getD i (0, 0)).2) ∧
    (∀ (rate prob : ℚ) (ind : Ind) (k i : ℕ), i < ind.length → i < g.boundaries.length →
      ind.getD i 0 = 0 → (g.boundaries.getD i (0, 0)).1 ≤ 0 →
      0 ≤ (g.boundaries.getD i (0, 0)).2 →
      (mutation g true rate ind prob σ k).1.getD i 0 = 0) := by
  refine ⟨?_, ?_, ?_⟩
  · intro n k x1 x2 r1 r2 hs1 hs2
    simp only [breed_children, hs1, hs2, eq_self_iff_true, if_true]
  · intro rate prob ind k i hi hib
    unfold mutation
    rw [if_pos rfl]
    exact mutation_go_getD σ prob ind g.boundaries k i hi hib
  · intro rate prob ind k i hi hib h0 hlo hhi
    unfold mutation
    rw [if_pos rfl, mutation_go_getD σ prob ind g.boundaries k i hi hib, h0]
    have hu : uniform (-(prob * 0)) (prob * 0) (σ (k + i)) = 0 := by
      simp [uniform]
    rw [hu, add_zero]
    unfold clamp
    rw [max_eq_left hlo, min_eq_left hhi]

/-- Witness for C7 at the two-individual fixture: both selections return the
rank-2 individual `[5]` on draw `1/2`, so the child's mutation probability is
`1/4 * ((2 - 2 + 1 + (2 - 2 + 1)) / 2 / 2)`; the per-parameter and
zero-fixpoint facts are instantiated at value `3` and value `0`. -/
theorem claim_C7_witness :
    (breed_children gmin "maximize" .rank true (1 / 4) [[3], [5]] 3 σW (0 + 1) 0 =
      match breed_children gmin "maximize" .rank true (1 / 4) [[3], [5]] 3 σW 0
          (mutation gmin true (1 / 4) (crossover [5] [5])
            ((1 / 4) *
              ((((gmin.pop_size : ℚ) - 2 + 1) + ((gmin.pop_size : ℚ) - 2 + 1)) / 2 /
                gmin.pop_size)) σW (0 + 2)).2 with
      | none => none
      | some (rest, k'') =>
        some ((mutation gmin true (1 / 4) (crossover [5] [5])
          ((1 / 4) *
            ((((gmin.pop_size : ℚ) - 2 + 1) + ((gmin.pop_size : ℚ) - 2 + 1)) / 2 /
              gmin.pop_size)) σW (0 + 2)).1 :: rest, k'')) ∧
    ((mutation gmin true (1 / 2) [3] (1 / 4) σW 0).1.getD 0 0 =
      clamp ((3 : ℚ) + uniform (-((1 / 4) * 3)) ((1 / 4) * 3) (σW 0))
        (gmin.boundaries.getD 0 (0, 0)).1 (gmin.boundaries.getD 0 (0, 0)).2) ∧
    ((mutation gmin true (1 / 2) [0] (1 / 4) σW 0).1.getD 0 0 = 0) := by
  obtain ⟨ha, hb, hc⟩ := claim_C7 gmin "maximize" .rank (1 / 4) [[3], [5]] 3 σW
  refine ⟨ha 0 0 [5] [5] 2 2 ?_ ?_, ?_, ?_⟩
  · norm_num [select_fn, rank_select, rank_select_go, σW]
  · norm_num [select_fn, rank_select, rank_select_go, σW]
  · have := hb (1 / 2) (1 / 4) [3] 0 0 (by norm_num) (by norm_num [gmin])
    simpa using this
  · exact hc (1 / 2) (1 / 4) [0] 0 0 (by norm_num) (by norm_num [gmin]) (by norm_num)
      (by norm_num [gmin]) (by norm_num [gmin])

end GA
